import Mathlib

set_option autoImplicit false

/-!
# Verification of the lab2-search containers (src/main.cpp)

Shallow embedding of the search structures of src/main.cpp: linear search,
the unbalanced BST, the red-black tree (pointer algorithm rendered as a
zipper over the descent path), and the chained hash table with its collision
counter, together with the dataset generator and the CSV-emitting harness.
Record references (const Passenger*) are modelled as indices into the
dataset list; all structures store the index of each inserted record.
-/

namespace Lab2

/-- String comparison, as the C++ std::string operator< (lexicographic).
The proposition is the standard String order; this instance only makes it
kernel-reducible (the library's instance runs on byte iterators and does
not reduce definitionally), so concrete trees can be evaluated in
witnesses. -/
instance (s t : String) : Decidable (s < t) :=
  decidable_of_iff (s.data < t.data) (by rw [String.lt_iff_toList_lt]; rfl)

/-- A dataset record (struct Passenger in src/main.cpp). The search key is
fullName; the other fields never influence any search structure. -/
structure Passenger where
  fullName : String
  cabinNumber : Nat
  cabinType : String
  destinationPort : String
  deriving DecidableEq, Inhabited

/-- Recursion for linearSearch: scan the remaining records, with i the index
of the first one; collect every index whose fullName equals the key. -/
def linearSearchAux (key : String) : List Passenger → Nat → List Nat
  | [], _ => []
  | p :: rest, i =>
    if p.fullName = key then i :: linearSearchAux key rest (i + 1)
    else linearSearchAux key rest (i + 1)

/-- linearSearch of src/main.cpp: indices of all records whose fullName
equals the key, in ascending order. -/
def linearSearch (arr : List Passenger) (key : String) : List Nat :=
  linearSearchAux key arr 0

/-! ## Unbalanced binary search tree (class BST) -/

/-- Node of the unbalanced BST (struct BSTNode): key, payload of record
indices, left and right subtrees. -/
inductive BTree where
  | nil
  | node (l : BTree) (k : String) (pl : List Nat) (r : BTree)
  deriving DecidableEq

/-- BST::insert: descend comparing keys; on an exact match append the record
index to the payload, otherwise descend (creating the missing leaf). -/
def BTree.insert (t : BTree) (key : String) (i : Nat) : BTree :=
  match t with
  | .nil => .node .nil key [i] .nil
  | .node l k pl r =>
    if key = k then .node l k (pl ++ [i]) r
    else if key < k then .node (l.insert key i) k pl r
    else .node l k pl (r.insert key i)

/-- BST::search: iterative descent; payload on exact match, empty at null. -/
def BTree.search (t : BTree) (key : String) : List Nat :=
  match t with
  | .nil => []
  | .node l k pl r =>
    if key = k then pl
    else if key < k then l.search key
    else r.search key

/-- The harness inserts every record of the dataset, in order, into the BST;
the stored reference of record number i is modelled as the index i. -/
def buildBST (data : List Passenger) : BTree :=
  data.enum.foldl (fun t ip => t.insert ip.2.fullName ip.1) .nil

/-! ## Red-black tree (class RBTree)

The C++ code works on nodes with parent pointers. Here the subtree under
the current node is an RBT value and the path back to the root is a list of
Frames (a zipper): each frame records whether the hole is the left or right
child of that ancestor, the ancestor's color, key, payload, and its other
subtree. Plugging the current subtree into the context rebuilds the tree,
so rotations become local re-linkings of the same nodes, exactly as the
pointer updates of rotateLeft/rotateRight. -/

/-- Node color (enum Color). -/
inductive Col where
  | red
  | black
  deriving DecidableEq

/-- Which child of its parent a node is. -/
inductive Dir where
  | left
  | right
  deriving DecidableEq

/-- Node of the red-black tree (struct RBTNode), parent links left to the
zipper context. -/
inductive RBT where
  | nil
  | node (c : Col) (l : RBT) (k : String) (pl : List Nat) (r : RBT)
  deriving DecidableEq

/-- One ancestor on the descent path: the side the hole is on, and the
ancestor's color, key, payload and other subtree. -/
structure Frame where
  dir : Dir
  c : Col
  k : String
  pl : List Nat
  other : RBT
  deriving DecidableEq

/-- Rebuild one level: put the subtree back into its parent's hole. -/
def fillFrame (f : Frame) (t : RBT) : RBT :=
  match f.dir with
  | .left => .node f.c t f.k f.pl f.other
  | .right => .node f.c f.other f.k f.pl t

/-- Rebuild the whole tree from a subtree and its context (innermost frame
first). -/
def plug (t : RBT) (ctx : List Frame) : RBT :=
  ctx.foldl (fun s f => fillFrame f s) t

/-- RBTree::rotateLeft at the root of the given subtree. The C++ code
requires x->right non-null; the fallback copies x unchanged and is never
reached from fixInsert. Colors travel with their nodes, as in the code. -/
def rotateLeft : RBT → RBT
  | .node cx a kx px (.node cy b ky py c) => .node cy (.node cx a kx px b) ky py c
  | t => t

/-- RBTree::rotateRight at the root of the given subtree (mirror). -/
def rotateRight : RBT → RBT
  | .node cy (.node cx a kx px b) ky py c => .node cx a kx px (.node cy b ky py c)
  | t => t

/-- Whether the root node of a subtree exists and is red (the C++ test
y && y->color == RED). -/
def isRed : RBT → Bool
  | .node .red _ _ _ _ => true
  | _ => false

/-- Recolor the root black (root->color = BLACK; no-op on an empty tree). -/
def blackenRoot : RBT → RBT
  | .nil => .nil
  | .node _ l k pl r => .node .black l k pl r

/-- RBTree::fixInsert. z is the current subtree (rooted at the node the C++
z points to) and ctx the path to the root. Loop while the parent exists and
is red; pf is z's parent frame, gf its grandparent frame, gf.other the
uncle. In the uncle-red case recolor and continue from the grandparent. In
the uncle-black case straighten a zig-zag with one rotation, recolor parent
black and grandparent red, rotate at the grandparent — the new local root is
black, so the loop exits and the root is blackened. A red parent with no
grandparent cannot arise from a tree whose root is black (in C++ it would
dereference a null parent); that branch just rebuilds and blackens. -/
def fixInsert : RBT → List Frame → RBT
  | z, [] => blackenRoot z
  | z, pf :: rest =>
    if pf.c = .black then blackenRoot (plug z (pf :: rest))
    else
      match rest with
      | [] => blackenRoot (plug z [pf])
      | gf :: rest' =>
        if isRed gf.other then
          fixInsert
            (fillFrame { gf with c := .red, other := blackenRoot gf.other }
              (fillFrame { pf with c := .black } z)) rest'
        else
          match gf.dir with
          | .left =>
            let p1 := if pf.dir = .right then rotateLeft (fillFrame pf z) else fillFrame pf z
            blackenRoot (plug (rotateRight (.node .red (blackenRoot p1) gf.k gf.pl gf.other)) rest')
          | .right =>
            let p1 := if pf.dir = .left then rotateRight (fillFrame pf z) else fillFrame pf z
            blackenRoot (plug (rotateLeft (.node .red gf.other gf.k gf.pl (blackenRoot p1))) rest')

/-- Descent of RBTree::insert, accumulating the path. On an exact key match
append to the payload and return with no rebalancing; at a null link create
a red node holding the record index and run fixInsert on it. -/
def insertGo : RBT → String → Nat → List Frame → RBT
  | .nil, key, i, ctx => fixInsert (.node .red .nil key [i] .nil) ctx
  | .node c l k pl r, key, i, ctx =>
    if key = k then plug (.node c l k (pl ++ [i]) r) ctx
    else if key < k then insertGo l key i (⟨.left, c, k, pl, r⟩ :: ctx)
    else insertGo r key i (⟨.right, c, k, pl, l⟩ :: ctx)

/-- RBTree::insert. -/
def RBT.insert (t : RBT) (key : String) (i : Nat) : RBT :=
  insertGo t key i []

/-- RBTree::search: same descent as the BST. -/
def RBT.search (t : RBT) (key : String) : List Nat :=
  match t with
  | .nil => []
  | .node _ l k pl r =>
    if key = k then pl
    else if key < k then l.search key
    else r.search key

/-- The harness inserts every record of the dataset, in order. -/
def buildRBT (data : List Passenger) : RBT :=
  data.enum.foldl (fun t ip => t.insert ip.2.fullName ip.1) .nil

/-! ## Chained hash table (class HashTable) -/

/-- HashTable::hashStr: polynomial rolling hash, multiplier 31, reduced
modulo mod at every step. -/
def hashStr (s : String) (mod : Nat) : Nat :=
  s.data.foldl (fun h c => (h * 31 + c.toNat) % mod) 0

/-- One chain node (struct Bucket): key and payload of record indices; the
next pointers become the tail of the enclosing list. -/
structure HEntry where
  key : String
  payload : List Nat
  deriving DecidableEq

/-- Hash table state: the bucket array and the collision counter. -/
structure HashTable where
  table : List (List HEntry)
  collisions : Nat
  deriving DecidableEq

/-- HashTable(nBuckets): all buckets empty, counter zero. -/
def HashTable.empty (nBuckets : Nat) : HashTable :=
  ⟨List.replicate nBuckets [], 0⟩

/-- The chain walk of HashTable::insert on a non-empty bucket: append the
index to the first entry with the key, or a fresh entry at the tail. -/
def chainInsert (key : String) (i : Nat) : List HEntry → List HEntry
  | [] => [⟨key, [i]⟩]
  | e :: rest =>
    if e.key = key then ⟨e.key, e.payload ++ [i]⟩ :: rest
    else e :: chainInsert key i rest

/-- The bucket a key lands in (the local Bucket* cur = table[idx] of the
C++ code, with idx = hashStr(key, table.size())). -/
def HashTable.bucket (ht : HashTable) (key : String) : List HEntry :=
  ht.table.getD (hashStr key ht.table.length) []

/-- HashTable::insert: hash the key; an empty bucket receives a fresh entry
with no collision counted; a non-empty bucket increments the collision
counter once and is updated by the chain walk. -/
def HashTable.insert (ht : HashTable) (key : String) (i : Nat) : HashTable :=
  let idx := hashStr key ht.table.length
  match ht.bucket key with
  | [] => ⟨ht.table.set idx [⟨key, [i]⟩], ht.collisions⟩
  | e :: rest => ⟨ht.table.set idx (chainInsert key i (e :: rest)), ht.collisions + 1⟩

/-- The chain walk of HashTable::search. -/
def chainLookup (key : String) : List HEntry → List Nat
  | [] => []
  | e :: rest => if e.key = key then e.payload else chainLookup key rest

/-- HashTable::search: scan the key's bucket. -/
def HashTable.search (ht : HashTable) (key : String) : List Nat :=
  chainLookup key (ht.bucket key)

/-- HashTable::collisionCount. -/
def HashTable.collisionCount (ht : HashTable) : Nat :=
  ht.collisions

/-- The harness builds the table with a caller-chosen bucket count
(main uses 2n + 1) and inserts every record in order. -/
def buildHT (nBuckets : Nat) (data : List Passenger) : HashTable :=
  data.enum.foldl (fun ht ip => ht.insert ip.2.fullName ip.1) (HashTable.empty nBuckets)

/-! ## Invariants of the red-black tree -/

/-- Inorder listing of the entries (key, payload) of the tree. -/
def RBT.toList : RBT → List (String × List Nat)
  | .nil => []
  | .node _ l k pl r => l.toList ++ (k, pl) :: r.toList

/-- Inorder listing of the entries of the unbalanced tree. -/
def BTree.toList : BTree → List (String × List Nat)
  | .nil => []
  | .node l k pl r => l.toList ++ (k, pl) :: r.toList

/-- The keys of the tree, in inorder. -/
def RBT.keys (t : RBT) : List String :=
  t.toList.map Prod.fst

/-- Invariant (b): every node carries one of the two colors (immediate for
the two-valued Col, exactly as for the C++ enum Color). -/
def colorsOK : RBT → Bool
  | .nil => true
  | .node c l _ _ r => (c == Col.red || c == Col.black) && colorsOK l && colorsOK r

/-- A null reference counts as black; a real node is black iff its color
field is black. -/
def isBlackRoot : RBT → Bool
  | .node .red _ _ _ _ => false
  | _ => true

/-- Invariant (d): no red node has a red child (equivalently, no red node
has a red parent). -/
def redInv : RBT → Bool
  | .nil => true
  | .node c l _ _ r =>
    redInv l && redInv r &&
      (match c with
        | .black => true
        | .red => isBlackRoot l && isBlackRoot r)

/-- How many black nodes a node of the given color contributes to a path. -/
def colVal : Col → Nat
  | .red => 0
  | .black => 1

/-- Black-height of the tree: some h when every path from the root to a
descendant null reference passes through exactly h black nodes, none when
the paths disagree somewhere. -/
def bhOpt : RBT → Option Nat
  | .nil => some 0
  | .node c l _ _ r =>
    match bhOpt l, bhOpt r with
    | some a, some b => if a = b then some (a + colVal c) else none
    | _, _ => none

/-- Invariant (a): at every node, the keys of the left subtree are below the
node's key and the keys of the right subtree above it. -/
def Ordered : RBT → Prop
  | .nil => True
  | .node _ l k _ r =>
    (∀ k' ∈ l.keys, k' < k) ∧ (∀ k' ∈ r.keys, k < k') ∧ Ordered l ∧ Ordered r

/-- All five red-black invariants of the spec. -/
def RBValid (t : RBT) : Prop :=
  Ordered t ∧ colorsOK t = true ∧ isBlackRoot t = true ∧ redInv t = true ∧
    (bhOpt t).isSome = true

/-! ## Dataset generator (makeData / randomString)

The draws from the mt19937 generator are modelled as oracle streams: one
stream of characters for the successive values of the uniform character
distribution inside randomString, and one stream of raw generator outputs
for the direct rng() calls that pick keys from the pool. -/

/-- randomString(rng, len): a string of len characters; pos is the index of
the first character draw it consumes. -/
def randomString (letters : Nat → Char) (pos len : Nat) : String :=
  String.mk ((List.range len).map (fun j => letters (pos + j)))

/-- The name pool built by makeData: max(10, n/20) strings of length 10,
the i-th consuming character draws 10i..10i+9. -/
def makePool (letters : Nat → Char) (n : Nat) : List String :=
  (List.range (max 10 (n / 20))).map (fun i => randomString letters (10 * i) 10)

/-- The keys of the n records of makeData: record i's key is
pool[rng() % pool.size()], with raws i the raw generator output consumed by
the rng() call for record i. -/
def makeKeys (letters : Nat → Char) (raws : Nat → Nat) (n : Nat) : List String :=
  (List.range n).map (fun i => (makePool letters n).getD (raws i % (makePool letters n).length) "")

/-! ## Benchmark harness (main) -/

/-- The fixed list of dataset sizes of main. -/
def sizesList : List Nat :=
  [100, 1000, 5000, 10000, 50000, 100000, 200000, 500000, 750000, 1000000]

/-- The five timeIt results for one size, in nanoseconds (real-time
measurement is an oracle; the code stores the nanosecond count of each
single search call). -/
structure Timings where
  lin : Nat
  bst : Nat
  rbt : Nat
  hash : Nat
  multimap : Nat

/-- struct ResultRow of src/main.cpp (times held as the integral nanosecond
counts produced by duration_cast). -/
structure ResultRow where
  size : Nat
  tLinear : Nat
  tBST : Nat
  tRBT : Nat
  tHash : Nat
  tMultimap : Nat
  collisions : Nat

/-- The measurement loop of main: for each size n, one row holding n, the
five timings, and the collision count of the hash table with 2n + 1 buckets
built from that size's dataset; rows are accumulated in loop order. -/
def mainRows (t : Nat → Timings) (dataFor : Nat → List Passenger) : List ResultRow :=
  sizesList.foldl
    (fun rows n =>
      rows ++ [⟨n, (t n).lin, (t n).bst, (t n).rbt, (t n).hash, (t n).multimap,
        (buildHT (n * 2 + 1) (dataFor n)).collisionCount⟩]) []

/-- The header line main writes to search_times.csv. -/
def csvHeader : String :=
  "size,linear_us,bst_us,rbt_us,hash_us,multimap_us,collisions"

/-- The exponent suffix of the scientific notation the stream writes, with
at least two exponent digits (e+06, e+07, ...). -/
def expStr (e : Nat) : String :=
  if e < 10 then "e+0" ++ Nat.repr e else "e+" ++ Nat.repr e

/-- A 6-digit mantissa rendered with the decimal point after the first
digit and the trailing zeros stripped, as the default float format does
(123457 becomes 1.23457, 120000 becomes 1.2, 100000 becomes 1). -/
def mantissaStr (q : Nat) : String :=
  match (Nat.repr q).data with
  | [] => "0"
  | d :: rest =>
    match (rest.reverse.dropWhile (fun c => c == '0')).reverse with
    | [] => String.mk [d]
    | frac => String.mk (d :: '.' :: frac)

/-- The rendering main's csv stream applies to a time field: a double is
written with the default ostream format (defaultfloat, precision 6 — the
printf %g rule). The field holds a double that carries the integral
nanosecond count exactly (counts stay far below 2^53), so: below 10^6 the
count's decimal digits are written unchanged; from 10^6 on, the value is
rounded to 6 significant digits (to nearest, ties to even, the correctly
rounded conversion of the exact double), the mantissa loses its trailing
zeros, and a two-digit exponent is appended. -/
def formatDouble (x : Nat) : String :=
  if x < 1000000 then Nat.repr x
  else
    let n := (Nat.repr x).length
    let d := 10 ^ (n - 6)
    let q := x / d
    let r := x % d
    let q6 :=
      if 2 * r > d then q + 1
      else if 2 * r < d then q
      else if q % 2 = 1 then q + 1 else q
    if q6 = 1000000 then "1" ++ expStr n
    else mantissaStr q6 ++ expStr (n - 1)

/-- One data row exactly as main streams it: size, the five time fields
rendered as doubles, and the collision count, comma separated. -/
def csvLine (r : ResultRow) : String :=
  Nat.repr r.size ++ "," ++ formatDouble r.tLinear ++ "," ++ formatDouble r.tBST ++ ","
    ++ formatDouble r.tRBT ++ "," ++ formatDouble r.tHash ++ ","
    ++ formatDouble r.tMultimap ++ "," ++ Nat.repr r.collisions

/-- The written file, line by line: the header first, then one line per
row, in order. -/
def csvFileLines (rows : List ResultRow) : List String :=
  csvHeader :: rows.map csvLine

/-! ## Inorder entries of the red-black tree through the zipper

Rotations and recolorings permute no entries: the inorder entry list of the
rebuilt tree is invariant under fixInsert. The context contributes a left
part and a right part around the current subtree's entries. -/

/-- Entries a frame contributes to the left of the hole. -/
def frameL (f : Frame) : List (String × List Nat) :=
  match f.dir with
  | .left => []
  | .right => f.other.toList ++ [(f.k, f.pl)]

/-- Entries a frame contributes to the right of the hole. -/
def frameR (f : Frame) : List (String × List Nat) :=
  match f.dir with
  | .left => (f.k, f.pl) :: f.other.toList
  | .right => []

/-- Entries the whole context contributes to the left of the hole. -/
def ctxL : List Frame → List (String × List Nat)
  | [] => []
  | f :: rest => ctxL rest ++ frameL f

/-- Entries the whole context contributes to the right of the hole. -/
def ctxR : List Frame → List (String × List Nat)
  | [] => []
  | f :: rest => frameR f ++ ctxR rest

/-! ## Sorted entry lists -/

/-- The entry-list effect of one ordered-tree insert: append to the entry
with the key, or place a fresh entry at its sorted position. -/
def sortedInsert (key : String) (i : Nat) : List (String × List Nat) → List (String × List Nat)
  | [] => [(key, [i])]
  | (k, pl) :: rest =>
    if key = k then (k, pl ++ [i]) :: rest
    else if key < k then (key, [i]) :: (k, pl) :: rest
    else (k, pl) :: sortedInsert key i rest

/-- First-match lookup in an entry list. -/
def assocLookup (key : String) : List (String × List Nat) → List Nat
  | [] => []
  | (k, pl) :: rest => if key = k then pl else assocLookup key rest

/-- The keys of an entry list. -/
def entryKeys (l : List (String × List Nat)) : List String :=
  l.map Prod.fst

/-! ## Color and black-height invariants through fixInsert

The loop invariant of RBTree::fixInsert, phrased on the zipper: the current
subtree is red-rooted and internally valid, the context's siblings are
valid with matching black heights, no two consecutive context frames are
red, and a red frame has a black-rooted sibling — the only invariant
violation ever present is the possible red-red edge between the current
subtree and its parent frame. -/

/-- The first frame of the context (the parent) is black; False at the root
(a context below a black root never has a red outermost frame). -/
def headBlack : List Frame → Prop
  | [] => False
  | f :: _ => f.c = Col.black

/-- Black-height consistency of a context around a hole of black-height n. -/
def ctxBH : List Frame → Nat → Prop
  | [], _ => True
  | f :: rest, n => bhOpt f.other = some n ∧ ctxBH rest (n + colVal f.c)

/-- Color sanity of a context taken from a valid tree. -/
def ctxOK : List Frame → Prop
  | [] => True
  | f :: rest => redInv f.other = true ∧ ctxOK rest ∧
      (f.c = Col.red → isBlackRoot f.other = true ∧ headBlack rest)

/-- What the first frame demands of the subtree in the hole: a red parent
needs a black-rooted child (holds everywhere except at fixInsert's one
permitted violation). -/
def holeOK : List Frame → RBT → Prop
  | [], _ => True
  | f :: _, z => f.c = Col.red → isBlackRoot z = true

/-! ## Duplicate-key inserts (frame effect) -/

/-- The payload-append-only transform: the same descent as search, touching
nothing but the matching entry's payload. -/
def appendAt : RBT → String → Nat → RBT
  | .nil, _, _ => .nil
  | .node c l k pl r, key, i =>
    if key = k then .node c l k (pl ++ [i]) r
    else if key < k then .node c (appendAt l key i) k pl r
    else .node c l k pl (appendAt r key i)

/-- Erase every payload: what remains is the node structure, the keys, the
child links and the colors. -/
def stripPayloads : RBT → RBT
  | .nil => .nil
  | .node c l k _ r => .node c (stripPayloads l) k [] (stripPayloads r)

/-! ## Lemmas on the hash function -/

theorem hashStr_fold_lt (mod : Nat) (hm : 0 < mod) :
    ∀ (l : List Char) (h : Nat), h < mod →
      l.foldl (fun h c => (h * 31 + c.toNat) % mod) h < mod
  | [], _, hh => hh
  | _ :: rest, _, _ => hashStr_fold_lt mod hm rest _ (Nat.mod_lt _ hm)

theorem hashStr_lt (s : String) (mod : Nat) (hm : 0 < mod) : hashStr s mod < mod :=
  hashStr_fold_lt mod hm s.data 0 hm

theorem hashStr_snoc (l : List Char) (c : Char) (mod : Nat) :
    hashStr (String.mk (l ++ [c])) mod = (hashStr (String.mk l) mod * 31 + c.toNat) % mod := by
  simp [hashStr, List.foldl_append]

theorem hashStr_one (s : String) : hashStr s 1 = 0 :=
  Nat.lt_one_iff.mp (hashStr_lt s 1 one_pos)

/-- C5: for every key string and bucket count greater than zero, hashStr
folds h = (h*31 + byte) mod bucketCount over the key's characters and its
value lies in [0, bucketCount); this is the bucket index that
HashTable.insert and HashTable.search compute from the table size. -/
theorem hash_function_spec (s : String) (mod : Nat) (hm : 0 < mod) :
    hashStr s mod < mod ∧
      (∀ c : Char,
        hashStr (String.mk (s.data ++ [c])) mod = (hashStr s mod * 31 + c.toNat) % mod) ∧
      ∀ ht : HashTable, ht.table.length = mod →
        hashStr s ht.table.length < ht.table.length := by
  refine ⟨hashStr_lt s mod hm, fun c => ?_, fun ht hlen => ?_⟩
  · simpa using hashStr_snoc s.data c mod
  · rw [hlen]; exact hashStr_lt s mod hm

/-- Witness for hash_function_spec at a concrete key and bucket count. -/
theorem hash_function_spec_witness :
    hashStr "alice" 13 < 13 ∧
      (∀ c : Char,
        hashStr (String.mk ("alice".data ++ [c])) 13 =
          (hashStr "alice" 13 * 31 + c.toNat) % 13) ∧
      ∀ ht : HashTable, ht.table.length = 13 →
        hashStr "alice" ht.table.length < ht.table.length :=
  hash_function_spec "alice" 13 (by decide)

/-! ## Lemmas on linear search -/

theorem mem_linearSearchAux (key : String) :
    ∀ (arr : List Passenger) (i j : Nat),
      j ∈ linearSearchAux key arr i ↔
        ∃ m, m < arr.length ∧ j = m + i ∧ (arr.getD m default).fullName = key
  | [], i, j => by simp [linearSearchAux]
  | p :: rest, i, j => by
    by_cases hp : p.fullName = key
    · simp only [linearSearchAux, if_pos hp, List.mem_cons,
        mem_linearSearchAux key rest (i + 1) j, List.length_cons]
      constructor
      · rintro (rfl | ⟨m, hm, rfl, hkey⟩)
        · exact ⟨0, Nat.succ_pos _, by omega, by simpa using hp⟩
        · exact ⟨m + 1, by omega, by omega, by simpa using hkey⟩
      · rintro ⟨m, hm, rfl, hkey⟩
        cases m with
        | zero => left; omega
        | succ m => right; exact ⟨m, by omega, by omega, by simpa using hkey⟩
    · simp only [linearSearchAux, if_neg hp,
        mem_linearSearchAux key rest (i + 1) j, List.length_cons]
      constructor
      · rintro ⟨m, hm, rfl, hkey⟩
        exact ⟨m + 1, by omega, by omega, by simpa using hkey⟩
      · rintro ⟨m, hm, rfl, hkey⟩
        cases m with
        | zero => exact absurd (by simpa using hkey) hp
        | succ m => exact ⟨m, by omega, by omega, by simpa using hkey⟩

theorem linearSearchAux_sorted (key : String) :
    ∀ (arr : List Passenger) (i : Nat), (linearSearchAux key arr i).Sorted (· < ·)
  | [], _ => by simp [linearSearchAux]
  | p :: rest, i => by
    have hs := linearSearchAux_sorted key rest (i + 1)
    by_cases hp : p.fullName = key
    · simp only [linearSearchAux, if_pos hp, List.sorted_cons]
      refine ⟨fun b hb => ?_, hs⟩
      rcases (mem_linearSearchAux key rest (i + 1) b).mp hb with ⟨m, _, rfl, _⟩
      omega
    · simpa only [linearSearchAux, if_neg hp] using hs

/-- C6: linearSearch returns exactly the set of indices whose record's key
equals the searched key, in strictly ascending order (which pins the result
list down uniquely); it is a pure function of the dataset and the key, so
it has no side effects. -/
theorem linear_search_spec (arr : List Passenger) (key : String) :
    (linearSearch arr key).Sorted (· < ·) ∧
      ∀ i, i ∈ linearSearch arr key ↔
        i < arr.length ∧ (arr.getD i default).fullName = key := by
  refine ⟨linearSearchAux_sorted key arr 0, fun j => ?_⟩
  rw [linearSearch, mem_linearSearchAux]
  constructor
  · rintro ⟨m, hm, rfl, hkey⟩
    exact ⟨hm, hkey⟩
  · rintro ⟨hj, hkey⟩
    exact ⟨j, hj, by omega, hkey⟩

theorem linearSearchAux_append (key : String) (p : Passenger) :
    ∀ (arr : List Passenger) (i : Nat),
      linearSearchAux key (arr ++ [p]) i =
        linearSearchAux key arr i ++
          (if p.fullName = key then [arr.length + i] else [])
  | [], i => by
    by_cases hp : p.fullName = key <;> simp [linearSearchAux, hp]
  | q :: rest, i => by
    by_cases hq : q.fullName = key <;>
      simp [linearSearchAux, hq, linearSearchAux_append key p rest (i + 1), Nat.add_comm,
        Nat.add_assoc, Nat.add_left_comm]

/-- Appending one record to the dataset appends its index to the result
when its key matches, and changes nothing otherwise. -/
theorem linearSearch_append (arr : List Passenger) (p : Passenger) (key : String) :
    linearSearch (arr ++ [p]) key =
      linearSearch arr key ++ (if p.fullName = key then [arr.length] else []) := by
  simpa [linearSearch] using linearSearchAux_append key p arr 0

/-! ## Lemmas on the unbalanced tree -/

/-- Inserting and searching follow the same comparison path, so a search
after an insert sees exactly the old result, extended by the new record
when the keys coincide. -/
theorem BTree.search_insert (t : BTree) (k' : String) (i : Nat) (key : String) :
    (t.insert k' i).search key =
      if key = k' then t.search key ++ [i] else t.search key := by
  induction t with
  | nil =>
    by_cases h : key = k'
    · simp [BTree.insert, BTree.search, h]
    · by_cases hlt : key < k' <;> simp [BTree.insert, BTree.search, h, hlt]
  | node l k pl r ihl ihr =>
    simp only [BTree.insert]
    by_cases hk : k' = k
    · subst hk
      simp only [if_pos rfl]
      by_cases h : key = k'
      · simp [BTree.search, h]
      · by_cases hlt : key < k' <;> simp [BTree.search, h, hlt]
    · simp only [if_neg hk]
      by_cases hk2 : k' < k
      · simp only [if_pos hk2]
        by_cases h : key = k
        · subst h
          have hne : ¬ key = k' := fun e => hk e.symm
          simp [BTree.search, hne]
        · by_cases hlt : key < k
          · simp [BTree.search, h, hlt, ihl]
          · have hgt : k < key := lt_of_le_of_ne (not_lt.mp hlt) (Ne.symm h)
            have hne : ¬ key = k' := fun e => absurd (e ▸ hgt) (not_lt.mpr (le_of_lt hk2))
            simp [BTree.search, h, hlt, hne]
      · have hk3 : k < k' := lt_of_le_of_ne (not_lt.mp hk2) (Ne.symm hk)
        simp only [if_neg hk2]
        by_cases h : key = k
        · subst h
          have hne : ¬ key = k' := fun e => hk e.symm
          simp [BTree.search, hne]
        · by_cases hlt : key < k
          · have hne : ¬ key = k' := fun e => absurd (e ▸ hlt) (not_lt.mpr (le_of_lt hk3))
            simp [BTree.search, h, hlt, hne]
          · simp [BTree.search, h, hlt, ihr]

theorem buildBST_append (arr : List Passenger) (p : Passenger) :
    buildBST (arr ++ [p]) = (buildBST arr).insert p.fullName arr.length := by
  simp [buildBST, List.enum_append, List.enumFrom, List.foldl_append]

theorem buildBST_search (data : List Passenger) (key : String) :
    (buildBST data).search key = linearSearch data key := by
  induction data using List.reverseRecOn with
  | nil => simp [buildBST, BTree.search, linearSearch, linearSearchAux, List.enum]
  | append_singleton arr p ih =>
    rw [buildBST_append, BTree.search_insert, linearSearch_append, ih]
    by_cases hp : p.fullName = key
    · simp [hp]
    · have : ¬ key = p.fullName := fun e => hp e.symm
      simp [hp, this]

/-! ## Lemmas on the hash table -/

/-- Both branches of HashTable.insert write the chain produced by the chain
walk; on an empty bucket the walk degenerates to the fresh entry. -/
theorem HashTable.insert_table (ht : HashTable) (key : String) (i : Nat) :
    (ht.insert key i).table =
      ht.table.set (hashStr key ht.table.length) (chainInsert key i (ht.bucket key)) := by
  unfold HashTable.insert
  cases hb : ht.bucket key with
  | nil => simp [chainInsert]
  | cons e rest => rfl

theorem HashTable.insert_collisions (ht : HashTable) (key : String) (i : Nat) :
    (ht.insert key i).collisions =
      ht.collisions + (if ht.bucket key = [] then 0 else 1) := by
  unfold HashTable.insert
  cases hb : ht.bucket key with
  | nil => simp
  | cons e rest => simp

theorem HashTable.insert_table_length (ht : HashTable) (key : String) (i : Nat) :
    (ht.insert key i).table.length = ht.table.length := by
  rw [HashTable.insert_table]
  exact List.length_set ..

theorem chainInsert_ne_nil (key : String) (i : Nat) (c : List HEntry) :
    chainInsert key i c ≠ [] := by
  cases c with
  | nil => simp [chainInsert]
  | cons e rest => by_cases h : e.key = key <;> simp [chainInsert, h]

theorem chainLookup_chainInsert (key k' : String) (i : Nat) :
    ∀ c : List HEntry,
      chainLookup key (chainInsert k' i c) =
        if key = k' then chainLookup key c ++ [i] else chainLookup key c
  | [] => by
    by_cases h : key = k'
    · simp [chainInsert, chainLookup, h]
    · have h' : ¬ k' = key := fun e => h e.symm
      simp [chainInsert, chainLookup, h, h']
  | e :: rest => by
    by_cases he : e.key = k'
    · by_cases hek : e.key = key
      · have hk : key = k' := hek.symm.trans he
        simp [chainInsert, chainLookup, he, hek, hk]
      · have hk : ¬ key = k' := fun h => hek (he.trans h.symm)
        have hk' : ¬ k' = key := fun h => hk h.symm
        simp [chainInsert, chainLookup, he, hek, hk, hk']
    · by_cases hek : e.key = key
      · have hk : ¬ key = k' := fun h => he (hek.trans h)
        simp [chainInsert, chainLookup, he, hek, hk]
      · simp [chainInsert, chainLookup, he, hek, chainLookup_chainInsert key k' i rest]

/-- The chain length is unchanged when the inserted key already has an
entry in the chain: no new entry is created. -/
theorem chainInsert_length (k' : String) (i : Nat) :
    ∀ c : List HEntry, k' ∈ c.map HEntry.key →
      (chainInsert k' i c).length = c.length
  | [], h => by simp at h
  | e :: rest, h => by
    by_cases he : e.key = k'
    · simp [chainInsert, he]
    · have hmem : k' ∈ rest.map HEntry.key := by
        rcases (List.mem_map.mp h) with ⟨a, ha, hak⟩
        rcases List.mem_cons.mp ha with rfl | ha'
        · exact absurd hak he
        · exact List.mem_map.mpr ⟨a, ha', hak⟩
      simp [chainInsert, he, chainInsert_length k' i rest hmem]

theorem getD_set_self (l : List (List HEntry)) (n : Nat) (a : List HEntry)
    (h : n < l.length) : (l.set n a).getD n [] = a := by
  rw [List.getD_eq_getElem?_getD, List.getElem?_set_eq_of_lt a h]
  rfl

theorem getD_set_ne (l : List (List HEntry)) (n m : Nat) (a : List HEntry)
    (h : n ≠ m) : (l.set n a).getD m [] = l.getD m [] := by
  rw [List.getD_eq_getElem?_getD, List.getElem?_set_ne h, ← List.getD_eq_getElem?_getD]

/-- Search after insert, provided the table has at least one bucket (main
always constructs 2n + 1 buckets): the searched key sees its payload grow
exactly when it is the inserted key. -/
theorem HashTable.search_after_insert (ht : HashTable) (hpos : 0 < ht.table.length)
    (k' key : String) (i : Nat) :
    (ht.insert k' i).search key =
      if key = k' then ht.search key ++ [i] else ht.search key := by
  unfold HashTable.search HashTable.bucket
  rw [HashTable.insert_table_length, HashTable.insert_table]
  by_cases hidx : hashStr key ht.table.length = hashStr k' ht.table.length
  · rw [hidx, getD_set_self _ _ _ (hashStr_lt k' ht.table.length hpos),
      chainLookup_chainInsert]
    unfold HashTable.bucket
    rfl
  · have hne : hashStr k' ht.table.length ≠ hashStr key ht.table.length :=
      fun e => hidx e.symm
    rw [getD_set_ne _ _ _ _ hne]
    have hkk : ¬ key = k' := fun e => hidx (e ▸ rfl)
    simp [hkk]

theorem foldHT_table_length :
    ∀ (l : List (Nat × Passenger)) (ht : HashTable),
      (l.foldl (fun ht ip => ht.insert ip.2.fullName ip.1) ht).table.length = ht.table.length
  | [], _ => rfl
  | ip :: rest, ht => by
    rw [List.foldl_cons, foldHT_table_length rest _, HashTable.insert_table_length]

theorem buildHT_table_length (nBuckets : Nat) (data : List Passenger) :
    (buildHT nBuckets data).table.length = nBuckets := by
  rw [buildHT, foldHT_table_length]
  simp [HashTable.empty]

/-- With a single bucket every insertion lands in bucket 0; once that bucket
is non-empty, every further insertion counts one collision. -/
theorem foldHT_collisions_one :
    ∀ (l : List (Nat × Passenger)) (ht : HashTable),
      ht.table.length = 1 → ht.table.getD 0 [] ≠ [] →
      (l.foldl (fun ht ip => ht.insert ip.2.fullName ip.1) ht).collisions =
        ht.collisions + l.length
  | [], _, _, _ => by simp
  | ip :: rest, ht, h1, hne => by
    have hb : ht.bucket ip.2.fullName = ht.table.getD 0 [] := by
      unfold HashTable.bucket
      rw [h1, hashStr_one]
    have hcol := ht.insert_collisions ip.2.fullName ip.1
    rw [hb, if_neg hne] at hcol
    have hlen1 : (ht.insert ip.2.fullName ip.1).table.length = 1 := by
      rw [HashTable.insert_table_length, h1]
    have hne1 : (ht.insert ip.2.fullName ip.1).table.getD 0 [] ≠ [] := by
      rw [HashTable.insert_table, h1, hashStr_one]
      rw [getD_set_self _ _ _ (by omega)]
      exact chainInsert_ne_nil _ _ _
    rw [List.foldl_cons, foldHT_collisions_one rest _ hlen1 hne1, hcol,
      List.length_cons]
    omega

theorem buildHT_one_collisions (data : List Passenger) :
    (buildHT 1 data).collisionCount = data.length - 1 := by
  cases data with
  | nil => rfl
  | cons p rest =>
    unfold buildHT HashTable.collisionCount
    rw [List.enum_cons]
    have hbe : (HashTable.empty 1).bucket p.fullName = [] := by
      unfold HashTable.bucket HashTable.empty
      simp [hashStr_one]
    have hcol := (HashTable.empty 1).insert_collisions p.fullName 0
    rw [hbe, if_pos rfl] at hcol
    have h1 : ((HashTable.empty 1).insert p.fullName 0).table.length = 1 := by
      rw [HashTable.insert_table_length]; rfl
    have hne1 : ((HashTable.empty 1).insert p.fullName 0).table.getD 0 [] ≠ [] := by
      rw [HashTable.insert_table]
      show (((List.replicate 1 []).set (hashStr p.fullName 1) _).getD 0 []) ≠ []
      rw [hashStr_one, getD_set_self _ _ _ (by simp)]
      exact chainInsert_ne_nil _ _ _
    rw [List.foldl_cons, foldHT_collisions_one _ _ h1 hne1, hcol]
    simp [HashTable.empty]

/-- A non-empty bucket proves its index is inside the table, so the bucket
written by an insert of the same key is the chain walk's result. -/
theorem HashTable.bucket_insert_self (ht : HashTable) (key : String) (i : Nat)
    (hne : ht.bucket key ≠ []) :
    (ht.insert key i).bucket key = chainInsert key i (ht.bucket key) := by
  have hidx : hashStr key ht.table.length < ht.table.length := by
    by_contra hge
    exact hne (List.getD_eq_default _ _ (not_lt.mp hge))
  unfold HashTable.bucket
  rw [HashTable.insert_table_length, HashTable.insert_table,
    getD_set_self _ _ _ hidx]
  rfl

theorem getD_replicate_nil (n m : Nat) :
    (List.replicate n ([] : List HEntry)).getD m [] = [] := by
  rw [List.getD_eq_getElem?_getD]
  cases h : (List.replicate n ([] : List HEntry))[m]? with
  | none => rfl
  | some b => simp [List.eq_of_mem_replicate (List.getElem?_mem h)]

theorem searchEmptyHT (nBuckets : Nat) (key : String) :
    (HashTable.empty nBuckets).search key = [] := by
  unfold HashTable.search HashTable.bucket HashTable.empty
  rw [getD_replicate_nil]
  rfl

theorem foldHT_search (key : String) :
    ∀ (l : List (Nat × Passenger)) (ht : HashTable), 0 < ht.table.length →
      (l.foldl (fun ht ip => ht.insert ip.2.fullName ip.1) ht).search key =
        ht.search key ++ (l.filter (fun ip => ip.2.fullName = key)).map Prod.fst
  | [], _, _ => by simp
  | ip :: rest, ht, hpos => by
    have hpos1 : 0 < (ht.insert ip.2.fullName ip.1).table.length := by
      rw [HashTable.insert_table_length]
      exact hpos
    rw [List.foldl_cons, foldHT_search key rest _ hpos1,
      HashTable.search_after_insert ht hpos ip.2.fullName key ip.1]
    by_cases h : ip.2.fullName = key
    · subst h
      simp [List.filter_cons, List.append_assoc]
    · have h2 : ¬ key = ip.2.fullName := fun e => h e.symm
      simp [List.filter_cons, h, h2]

theorem enumFrom_filter (key : String) :
    ∀ (data : List Passenger) (i : Nat),
      ((List.enumFrom i data).filter (fun ip => ip.2.fullName = key)).map Prod.fst =
        linearSearchAux key data i
  | [], _ => rfl
  | p :: rest, i => by
    by_cases h : p.fullName = key <;>
      simp [List.enumFrom, List.filter_cons, linearSearchAux, h,
        enumFrom_filter key rest (i + 1)]

/-- The hash table built from the whole dataset answers every query exactly
as linear search does (any positive bucket count; main uses 2n + 1). -/
theorem buildHT_search (nBuckets : Nat) (hpos : 0 < nBuckets)
    (data : List Passenger) (key : String) :
    (buildHT nBuckets data).search key = linearSearch data key := by
  unfold buildHT
  have hlen : (HashTable.empty nBuckets).table.length = nBuckets := by
    simp [HashTable.empty]
  rw [List.enum_eq_enumFrom,
    foldHT_search key _ _ (by simpa [HashTable.empty] using hpos), searchEmptyHT,
    List.nil_append, enumFrom_filter]
  rfl

theorem plug_cons (t : RBT) (f : Frame) (rest : List Frame) :
    plug t (f :: rest) = plug (fillFrame f t) rest := rfl

theorem toList_fillFrame (f : Frame) (t : RBT) :
    (fillFrame f t).toList = frameL f ++ t.toList ++ frameR f := by
  rcases f with ⟨dir, c, k, pl, other⟩
  cases dir <;> simp [fillFrame, frameL, frameR, RBT.toList]

theorem toList_plug : ∀ (ctx : List Frame) (t : RBT),
    (plug t ctx).toList = ctxL ctx ++ t.toList ++ ctxR ctx
  | [], t => by simp [plug, ctxL, ctxR]
  | f :: rest, t => by
    rw [plug_cons, toList_plug rest _, toList_fillFrame]
    simp [ctxL, ctxR, List.append_assoc]

theorem toList_rotateLeft (t : RBT) : (rotateLeft t).toList = t.toList := by
  cases t with
  | nil => rfl
  | node cx a kx px r =>
    cases r with
    | nil => rfl
    | node cy b ky py c => simp [rotateLeft, RBT.toList, List.append_assoc]

theorem toList_rotateRight (t : RBT) : (rotateRight t).toList = t.toList := by
  cases t with
  | nil => rfl
  | node cy l ky py c =>
    cases l with
    | nil => rfl
    | node cx a kx px b => simp [rotateRight, RBT.toList, List.append_assoc]

theorem toList_blackenRoot (t : RBT) : (blackenRoot t).toList = t.toList := by
  cases t <;> rfl

theorem frameL_recolor (f : Frame) (c : Col) :
    frameL { f with c := c, other := blackenRoot f.other } = frameL f := by
  rcases f with ⟨dir, c0, k, pl, other⟩
  cases dir <;> simp [frameL, toList_blackenRoot]

theorem frameR_recolor (f : Frame) (c : Col) :
    frameR { f with c := c, other := blackenRoot f.other } = frameR f := by
  rcases f with ⟨dir, c0, k, pl, other⟩
  cases dir <;> simp [frameR, toList_blackenRoot]

theorem frameL_update_c (f : Frame) (c : Col) : frameL { f with c := c } = frameL f := rfl

theorem frameR_update_c (f : Frame) (c : Col) : frameR { f with c := c } = frameR f := rfl

/-- fixInsert only rotates and recolors: the inorder entry list of the tree
it returns is the entry list of the tree rebuilt with no fixup at all. -/
theorem toList_fixInsert : ∀ (ctx : List Frame) (z : RBT),
    (fixInsert z ctx).toList = (plug z ctx).toList
  | [], z => by simp [fixInsert, toList_blackenRoot, plug]
  | [pf], z => by
    by_cases hpf : pf.c = Col.black <;>
      simp [fixInsert, hpf, toList_blackenRoot]
  | pf :: gf :: rest, z => by
    by_cases hpf : pf.c = Col.black
    · simp [fixInsert, hpf, toList_blackenRoot]
    · by_cases hu : isRed gf.other
      · have hstep : fixInsert z (pf :: gf :: rest) =
            fixInsert
              (fillFrame { gf with c := Col.red, other := blackenRoot gf.other }
                (fillFrame { pf with c := Col.black } z)) rest := by
          simp [fixInsert, hpf, hu]
        rw [hstep, toList_fixInsert rest _, toList_plug, toList_plug, toList_fillFrame,
          toList_fillFrame, frameL_recolor, frameR_recolor]
        simp [ctxL, ctxR, List.append_assoc, frameL_update_c, frameR_update_c]
      · rcases hgd : gf.dir with _ | _
        · have hstep : fixInsert z (pf :: gf :: rest) =
              blackenRoot (plug (rotateRight
                (.node .red
                  (blackenRoot (if pf.dir = .right then rotateLeft (fillFrame pf z)
                    else fillFrame pf z))
                  gf.k gf.pl gf.other)) rest) := by
            simp [fixInsert, hpf, hu, hgd]
          rw [hstep, toList_blackenRoot, toList_plug, toList_plug, toList_rotateRight]
          have hp1 : (if pf.dir = .right then rotateLeft (fillFrame pf z)
              else fillFrame pf z).toList = (fillFrame pf z).toList := by
            by_cases hd : pf.dir = Dir.right <;> simp [hd, toList_rotateLeft]
          simp only [RBT.toList, toList_blackenRoot, hp1, toList_fillFrame]
          have hfl : frameL gf = [] := by simp [frameL, hgd]
          have hfr : frameR gf = (gf.k, gf.pl) :: gf.other.toList := by
            simp [frameR, hgd]
          simp [ctxL, ctxR, hfl, hfr, List.append_assoc]
        · have hstep : fixInsert z (pf :: gf :: rest) =
              blackenRoot (plug (rotateLeft
                (.node .red gf.other gf.k gf.pl
                  (blackenRoot (if pf.dir = .left then rotateRight (fillFrame pf z)
                    else fillFrame pf z)))) rest) := by
            simp [fixInsert, hpf, hu, hgd]
          rw [hstep, toList_blackenRoot, toList_plug, toList_plug, toList_rotateLeft]
          have hp1 : (if pf.dir = .left then rotateRight (fillFrame pf z)
              else fillFrame pf z).toList = (fillFrame pf z).toList := by
            by_cases hd : pf.dir = Dir.left <;> simp [hd, toList_rotateRight]
          simp only [RBT.toList, toList_blackenRoot, hp1, toList_fillFrame]
          have hfl : frameL gf = gf.other.toList ++ [(gf.k, gf.pl)] := by
            simp [frameL, hgd]
          have hfr : frameR gf = [] := by simp [frameR, hgd]
          simp [ctxL, ctxR, hfl, hfr, List.append_assoc]

theorem sortedInsert_append_lt (key : String) (i : Nat) (k : String) (pl : List Nat)
    (hlt : key < k) :
    ∀ (xs ys : List (String × List Nat)),
      sortedInsert key i (xs ++ (k, pl) :: ys) = sortedInsert key i xs ++ (k, pl) :: ys
  | [], ys => by
    have hne : ¬ key = k := ne_of_lt hlt
    simp [sortedInsert, hne, hlt]
  | (k', pl') :: xs, ys => by
    by_cases h1 : key = k'
    · simp [sortedInsert, h1]
    · by_cases h2 : key < k'
      · simp [sortedInsert, h1, h2]
      · simp [sortedInsert, h1, h2, sortedInsert_append_lt key i k pl hlt xs ys]

theorem sortedInsert_append_gt (key : String) (i : Nat) (k : String) (pl : List Nat)
    (hgt : k < key) :
    ∀ (xs ys : List (String × List Nat)), (∀ k' ∈ entryKeys xs, k' < key) →
      sortedInsert key i (xs ++ (k, pl) :: ys) = xs ++ (k, pl) :: sortedInsert key i ys
  | [], ys, _ => by
    have hne : ¬ key = k := fun e => absurd (e ▸ hgt) (lt_irrefl key)
    have hnlt : ¬ key < k := not_lt.mpr (le_of_lt hgt)
    simp [sortedInsert, hne, hnlt]
  | (k', pl') :: xs, ys, hb => by
    have hk' : k' < key := hb k' (by simp [entryKeys])
    have hne : ¬ key = k' := fun e => absurd (e ▸ hk') (lt_irrefl key)
    have hnlt : ¬ key < k' := not_lt.mpr (le_of_lt hk')
    have hb' : ∀ a ∈ entryKeys xs, a < key := fun a ha =>
      hb a (by simp [entryKeys] at ha ⊢; right; exact ha)
    simp [sortedInsert, hne, hnlt, sortedInsert_append_gt key i k pl hgt xs ys hb']

theorem sortedInsert_append_eq (key : String) (i : Nat) (pl : List Nat) :
    ∀ (xs ys : List (String × List Nat)), (∀ k' ∈ entryKeys xs, k' < key) →
      sortedInsert key i (xs ++ (key, pl) :: ys) = xs ++ (key, pl ++ [i]) :: ys
  | [], ys, _ => by simp [sortedInsert]
  | (k', pl') :: xs, ys, hb => by
    have hk' : k' < key := hb k' (by simp [entryKeys])
    have hne : ¬ key = k' := fun e => absurd (e ▸ hk') (lt_irrefl key)
    have hnlt : ¬ key < k' := not_lt.mpr (le_of_lt hk')
    have hb' : ∀ a ∈ entryKeys xs, a < key := fun a ha => hb a (by simp [entryKeys] at ha ⊢; right; exact ha)
    simp [sortedInsert, hne, hnlt, sortedInsert_append_eq key i pl xs ys hb']

/-- The entry-list effect of RBTree::insert on an ordered subtree, seen
through the context. -/
theorem toList_insertGo : ∀ (t : RBT) (key : String) (i : Nat) (ctx : List Frame),
    Ordered t →
      (insertGo t key i ctx).toList = ctxL ctx ++ sortedInsert key i t.toList ++ ctxR ctx
  | .nil, key, i, ctx, _ => by
    rw [insertGo, toList_fixInsert, toList_plug]
    simp [RBT.toList, sortedInsert]
  | .node c l k pl r, key, i, ctx, hord => by
    obtain ⟨hlt, hgt, hordl, hordr⟩ := hord
    by_cases h : key = k
    · subst h
      rw [insertGo, if_pos rfl, toList_plug]
      simp only [RBT.toList]
      rw [sortedInsert_append_eq key i pl l.toList r.toList hlt]
    · by_cases h2 : key < k
      · rw [insertGo, if_neg h, if_pos h2,
          toList_insertGo l key i (⟨.left, c, k, pl, r⟩ :: ctx) hordl]
        simp only [RBT.toList, ctxL, ctxR, frameL, frameR]
        rw [sortedInsert_append_lt key i k pl h2]
        simp [List.append_assoc]
      · have h3 : k < key := lt_of_le_of_ne (not_lt.mp h2) (fun e => h e.symm)
        rw [insertGo, if_neg h, if_neg h2,
          toList_insertGo r key i (⟨.right, c, k, pl, l⟩ :: ctx) hordr]
        simp only [RBT.toList, ctxL, ctxR, frameL, frameR]
        rw [sortedInsert_append_gt key i k pl h3 l.toList r.toList
          (fun k' hk' => lt_trans (hlt k' hk') h3)]
        simp [List.append_assoc]

theorem toList_insert (t : RBT) (key : String) (i : Nat) (h : Ordered t) :
    (t.insert key i).toList = sortedInsert key i t.toList := by
  rw [RBT.insert, toList_insertGo t key i [] h]
  simp [ctxL, ctxR]

theorem mem_entryKeys_sortedInsert (key : String) (i : Nat) :
    ∀ (L : List (String × List Nat)) (k' : String),
      k' ∈ entryKeys (sortedInsert key i L) → k' = key ∨ k' ∈ entryKeys L
  | [], k', h => by simpa [sortedInsert, entryKeys] using h
  | (k, pl) :: rest, k', h => by
    by_cases h1 : key = k
    · simp only [sortedInsert, if_pos h1, entryKeys, List.map_cons, List.mem_cons] at h ⊢
      tauto
    · by_cases h2 : key < k
      · simp only [sortedInsert, if_neg h1, if_pos h2, entryKeys, List.map_cons,
          List.mem_cons] at h ⊢
        tauto
      · simp only [sortedInsert, if_neg h1, if_neg h2, entryKeys, List.map_cons,
          List.mem_cons] at h ⊢
        rcases h with h | h
        · tauto
        · rcases mem_entryKeys_sortedInsert key i rest k' h with h3 | h3 <;> tauto

/-- sortedInsert keeps the key list strictly sorted. -/
theorem sortedInsert_sorted (key : String) (i : Nat) :
    ∀ L : List (String × List Nat), (entryKeys L).Sorted (· < ·) →
      (entryKeys (sortedInsert key i L)).Sorted (· < ·)
  | [], _ => by simp [sortedInsert, entryKeys]
  | (k, pl) :: rest, h => by
    rw [entryKeys, List.map_cons, List.sorted_cons] at h
    obtain ⟨hk, hrest⟩ := h
    by_cases h1 : key = k
    · simp only [sortedInsert, if_pos h1, entryKeys, List.map_cons, List.sorted_cons]
      exact ⟨hk, hrest⟩
    · by_cases h2 : key < k
      · simp only [sortedInsert, if_neg h1, if_pos h2, entryKeys, List.map_cons,
          List.sorted_cons]
        refine ⟨fun b hb => ?_, hk, hrest⟩
        rcases List.mem_cons.mp hb with rfl | hb2
        · exact h2
        · exact lt_trans h2 (hk b hb2)
      · have h3 : k < key := lt_of_le_of_ne (not_lt.mp h2) (fun e => h1 e.symm)
        simp only [sortedInsert, if_neg h1, if_neg h2, entryKeys, List.map_cons,
          List.sorted_cons]
        refine ⟨fun b hb => ?_, sortedInsert_sorted key i rest hrest⟩
        rcases mem_entryKeys_sortedInsert key i rest b hb with rfl | hb2
        · exact h3
        · exact hk b hb2

/-- A tree whose inorder keys are strictly sorted satisfies the recursive
ordering invariant. -/
theorem ordered_of_sorted : ∀ t : RBT, t.keys.Sorted (· < ·) → Ordered t
  | .nil, _ => trivial
  | .node c l k pl r, h => by
    rw [RBT.keys, RBT.toList, List.map_append, List.map_cons] at h
    rw [List.Sorted, List.pairwise_append] at h
    obtain ⟨h1, h2, h12⟩ := h
    rw [List.pairwise_cons] at h2
    obtain ⟨h2k, h2r⟩ := h2
    exact ⟨fun k' hk' => h12 k' hk' k (List.mem_cons_self _ _),
      fun k' hk' => h2k k' hk',
      ordered_of_sorted l h1, ordered_of_sorted r h2r⟩

theorem assocLookup_not_mem (key : String) :
    ∀ L : List (String × List Nat), key ∉ entryKeys L → assocLookup key L = []
  | [], _ => rfl
  | (k, pl) :: rest, h => by
    have hne : ¬ key = k := fun e => h (by simp [entryKeys, e])
    have h2 : key ∉ entryKeys rest := fun hm => h (by simp [entryKeys] at hm ⊢; right; exact hm)
    simp [assocLookup, hne, assocLookup_not_mem key rest h2]

theorem assocLookup_append_not_mem (key : String) :
    ∀ (xs ys : List (String × List Nat)), key ∉ entryKeys xs →
      assocLookup key (xs ++ ys) = assocLookup key ys
  | [], ys, _ => rfl
  | (k, pl) :: xs, ys, h => by
    have hne : ¬ key = k := fun e => h (by simp [entryKeys, e])
    have h2 : key ∉ entryKeys xs := fun hm => h (by simp [entryKeys] at hm ⊢; right; exact hm)
    simp [assocLookup, hne, assocLookup_append_not_mem key xs ys h2]

theorem assocLookup_append_mem (key : String) :
    ∀ (xs ys : List (String × List Nat)), key ∈ entryKeys xs →
      assocLookup key (xs ++ ys) = assocLookup key xs
  | [], _, h => by simp [entryKeys] at h
  | (k, pl) :: xs, ys, h => by
    by_cases hk : key = k
    · simp [assocLookup, hk]
    · have h2 : key ∈ entryKeys xs := by
        simp [entryKeys] at h
        rcases h with h | h
        · exact absurd h hk
        · simpa [entryKeys] using h
      simp [assocLookup, hk, assocLookup_append_mem key xs ys h2]

/-- On an ordered tree the search descent returns the first-match lookup of
the inorder entry list. -/
theorem search_eq_assocLookup : ∀ t : RBT, Ordered t → ∀ key : String,
    t.search key = assocLookup key t.toList
  | .nil, _, key => rfl
  | .node c l k pl r, hord, key => by
    obtain ⟨hlt, hgt, hordl, hordr⟩ := hord
    rw [RBT.search, RBT.toList]
    by_cases h : key = k
    · subst h
      have hnm : key ∉ entryKeys l.toList := fun hm =>
        absurd (hlt key hm) (lt_irrefl key)
      rw [if_pos rfl, assocLookup_append_not_mem key _ _ hnm]
      simp [assocLookup]
    · by_cases h2 : key < k
      · rw [if_neg h, if_pos h2, search_eq_assocLookup l hordl key]
        by_cases hm : key ∈ entryKeys l.toList
        · rw [assocLookup_append_mem key _ _ hm]
        · have hnr : key ∉ entryKeys r.toList := fun hmr =>
            absurd (lt_trans h2 (hgt key hmr)) (lt_irrefl key)
          rw [assocLookup_append_not_mem key _ _ hm, assocLookup_not_mem key _ hm]
          simp [assocLookup, h, assocLookup_not_mem key _ hnr]
      · have h3 : k < key := lt_of_le_of_ne (not_lt.mp h2) (fun e => h e.symm)
        have hnm : key ∉ entryKeys l.toList := fun hm =>
          absurd (lt_trans (hlt key hm) h3) (lt_irrefl key)
        rw [if_neg h, if_neg h2, search_eq_assocLookup r hordr key,
          assocLookup_append_not_mem key _ _ hnm]
        simp [assocLookup, h]

/-- Lookup through sortedInsert: the inserted key's payload grows by the new
index, all other lookups are untouched. -/
theorem assocLookup_sortedInsert (key k' : String) (i : Nat) :
    ∀ L : List (String × List Nat), (entryKeys L).Sorted (· < ·) →
      assocLookup key (sortedInsert k' i L) =
        if key = k' then assocLookup key L ++ [i] else assocLookup key L
  | [], _ => by
    by_cases h : key = k' <;> simp [sortedInsert, assocLookup, h]
  | (k, pl) :: rest, hs => by
    rw [entryKeys, List.map_cons, List.sorted_cons] at hs
    obtain ⟨hk, hrest⟩ := hs
    by_cases h1 : k' = k
    · subst h1
      by_cases h : key = k'
      · subst h
        simp [sortedInsert, assocLookup]
      · simp [sortedInsert, assocLookup, h]
    · by_cases h2 : k' < k
      · by_cases h : key = k'
        · have hnm : key ∉ entryKeys ((k, pl) :: rest) := by
            intro hm
            rw [entryKeys, List.map_cons] at hm
            rcases List.mem_cons.mp hm with h4 | hm2
            · exact h1 (h.symm.trans h4)
            · have hx := lt_trans h2 (hk key hm2)
              rw [h] at hx
              exact absurd hx (lt_irrefl k')
          rw [assocLookup_not_mem key _ hnm]
          simp [sortedInsert, h1, h2, assocLookup, h]
        · simp [sortedInsert, h1, h2, assocLookup, h]
      · have h3 : k < k' := lt_of_le_of_ne (not_lt.mp h2) (fun e => h1 e.symm)
        by_cases h : key = k
        · have hne : ¬ key = k' := fun e => h1 (e.symm.trans h)
          have hne2 : ¬ k = k' := fun e => h1 e.symm
          simp [sortedInsert, h1, h2, assocLookup, h, hne, hne2]
        · simp [sortedInsert, h1, h2, assocLookup, h,
            assocLookup_sortedInsert key k' i rest hrest]

theorem buildRBT_append (arr : List Passenger) (p : Passenger) :
    buildRBT (arr ++ [p]) = (buildRBT arr).insert p.fullName arr.length := by
  simp [buildRBT, List.enum_append, List.enumFrom, List.foldl_append]

/-- Master property of the balanced tree built by the harness: its inorder
keys stay strictly sorted and every search answers exactly as linear
search. -/
theorem buildRBT_master (data : List Passenger) :
    (buildRBT data).keys.Sorted (· < ·) ∧
      ∀ key : String, (buildRBT data).search key = linearSearch data key := by
  induction data using List.reverseRecOn with
  | nil =>
    constructor
    · simp [buildRBT, List.enum, RBT.keys, RBT.toList]
    · intro key
      simp [buildRBT, List.enum, RBT.search, linearSearch, linearSearchAux]
  | append_singleton arr p ih =>
    obtain ⟨hsort, hsearch⟩ := ih
    have hord : Ordered (buildRBT arr) := ordered_of_sorted _ hsort
    have htl : (buildRBT (arr ++ [p])).toList =
        sortedInsert p.fullName arr.length (buildRBT arr).toList := by
      rw [buildRBT_append, toList_insert _ _ _ hord]
    have hsort2 : (buildRBT (arr ++ [p])).keys.Sorted (· < ·) := by
      rw [RBT.keys, htl]
      exact sortedInsert_sorted _ _ _ hsort
    refine ⟨hsort2, fun key => ?_⟩
    rw [search_eq_assocLookup _ (ordered_of_sorted _ hsort2) key, htl,
      assocLookup_sortedInsert key p.fullName arr.length _ hsort,
      linearSearch_append]
    rw [← search_eq_assocLookup _ hord key, hsearch key]
    by_cases h : key = p.fullName
    · subst h
      simp
    · have h2 : ¬ p.fullName = key := fun e => h e.symm
      simp [h, h2]

theorem col_not_black {c : Col} (h : ¬ c = Col.black) : c = Col.red := by
  cases c
  · rfl
  · exact absurd rfl h

theorem isRed_node_inv {t : RBT} (h : isRed t = true) :
    ∃ l k pl r, t = .node .red l k pl r := by
  cases t with
  | nil => simp [isRed] at h
  | node c l k pl r =>
    cases c with
    | red => exact ⟨l, k, pl, r, rfl⟩
    | black => simp [isRed] at h

theorem isBlackRoot_of_not_red {t : RBT} (h : isRed t = false) :
    isBlackRoot t = true := by
  cases t with
  | nil => rfl
  | node c l k pl r => cases c with
    | red => simp [isRed] at h
    | black => rfl

theorem isRed_false_of_black {t : RBT} (h : isBlackRoot t = true) :
    isRed t = false := by
  cases t with
  | nil => rfl
  | node c l k pl r => cases c with
    | red => simp [isBlackRoot] at h
    | black => rfl

theorem redInv_node_inv {c : Col} {l : RBT} {k : String} {pl : List Nat} {r : RBT}
    (h : redInv (.node c l k pl r) = true) :
    redInv l = true ∧ redInv r = true ∧
      (c = Col.red → isBlackRoot l = true ∧ isBlackRoot r = true) := by
  cases c <;> simp [redInv, Bool.and_eq_true] at h <;> tauto

theorem redInv_node_black {l : RBT} {k : String} {pl : List Nat} {r : RBT}
    (hl : redInv l = true) (hr : redInv r = true) :
    redInv (.node .black l k pl r) = true := by
  simp [redInv, hl, hr]

theorem redInv_node_red {l : RBT} {k : String} {pl : List Nat} {r : RBT}
    (hl : redInv l = true) (hr : redInv r = true)
    (hbl : isBlackRoot l = true) (hbr : isBlackRoot r = true) :
    redInv (.node .red l k pl r) = true := by
  simp [redInv, hl, hr, hbl, hbr]

theorem bhOpt_node {c : Col} {l : RBT} {k : String} {pl : List Nat} {r : RBT} {a : Nat}
    (hl : bhOpt l = some a) (hr : bhOpt r = some a) :
    bhOpt (.node c l k pl r) = some (a + colVal c) := by
  simp [bhOpt, hl, hr]

theorem bhOpt_node_inv {c : Col} {l : RBT} {k : String} {pl : List Nat} {r : RBT} {n : Nat}
    (h : bhOpt (.node c l k pl r) = some n) :
    ∃ a, bhOpt l = some a ∧ bhOpt r = some a ∧ n = a + colVal c := by
  rcases hl : bhOpt l with _ | a <;> rcases hr : bhOpt r with _ | b <;>
    simp only [bhOpt, hl, hr] at h
  · simp at h
  · simp at h
  · simp at h
  · by_cases hab : a = b
    · subst hab
      rw [if_pos rfl] at h
      exact ⟨a, rfl, rfl, (Option.some_inj.mp h).symm⟩
    · rw [if_neg hab] at h
      simp at h

theorem redInv_blackenRoot {t : RBT} (h : redInv t = true) :
    redInv (blackenRoot t) = true := by
  cases t with
  | nil => rfl
  | node c l k pl r =>
    obtain ⟨hl, hr, _⟩ := redInv_node_inv h
    exact redInv_node_black hl hr

theorem isBlackRoot_blackenRoot (t : RBT) : isBlackRoot (blackenRoot t) = true := by
  cases t <;> rfl

theorem bhOpt_blackenRoot {t : RBT} {n : Nat} (h : bhOpt t = some n) :
    ∃ m, bhOpt (blackenRoot t) = some m := by
  cases t with
  | nil => exact ⟨0, rfl⟩
  | node c l k pl r =>
    obtain ⟨a, hl, hr, _⟩ := bhOpt_node_inv h
    exact ⟨a + 1, bhOpt_node hl hr⟩

theorem bhOpt_blackenRoot_red {t : RBT} {n : Nat} (hred : isRed t = true)
    (h : bhOpt t = some n) : bhOpt (blackenRoot t) = some (n + 1) := by
  obtain ⟨l, k, pl, r, rfl⟩ := isRed_node_inv hred
  obtain ⟨a, hl, hr, hn⟩ := bhOpt_node_inv h
  rw [blackenRoot, bhOpt_node hl hr]
  simp [colVal] at hn ⊢
  omega

theorem redInv_fillFrame {f : Frame} {t : RBT}
    (ht : redInv t = true) (ho : redInv f.other = true)
    (hred : f.c = Col.red → isBlackRoot t = true ∧ isBlackRoot f.other = true) :
    redInv (fillFrame f t) = true := by
  rcases f with ⟨dir, c, k, pl, other⟩
  cases c with
  | black =>
    cases dir
    · exact redInv_node_black ht ho
    · exact redInv_node_black ho ht
  | red =>
    obtain ⟨h1, h2⟩ := hred rfl
    cases dir
    · exact redInv_node_red ht ho h1 h2
    · exact redInv_node_red ho ht h2 h1

theorem bhOpt_fillFrame {f : Frame} {t : RBT} {n : Nat}
    (ht : bhOpt t = some n) (ho : bhOpt f.other = some n) :
    bhOpt (fillFrame f t) = some (n + colVal f.c) := by
  rcases f with ⟨dir, c, k, pl, other⟩
  cases dir
  · exact bhOpt_node ht ho
  · exact bhOpt_node ho ht

theorem isBlackRoot_fillFrame_black {f : Frame} {t : RBT} (h : f.c = Col.black) :
    isBlackRoot (fillFrame f t) = true := by
  rcases f with ⟨dir, c, k, pl, other⟩
  subst h
  cases dir <;> rfl

theorem isRed_fillFrame_red {f : Frame} {t : RBT} (h : f.c = Col.red) :
    isRed (fillFrame f t) = true := by
  rcases f with ⟨dir, c, k, pl, other⟩
  subst h
  cases dir <;> rfl

/-- Rebuilding through a color-sane context preserves validity: the plugged
tree satisfies the red invariant, has a defined black height, and (when the
context is not empty) a black root. -/
theorem plug_valid : ∀ (ctx : List Frame) (z : RBT) (n : Nat),
    ctxOK ctx → ctxBH ctx n → redInv z = true → bhOpt z = some n → holeOK ctx z →
    redInv (plug z ctx) = true ∧ (∃ m, bhOpt (plug z ctx) = some m) ∧
      (ctx ≠ [] → isBlackRoot (plug z ctx) = true)
  | [], z, n, _, _, hr, hb, _ => ⟨hr, ⟨n, hb⟩, fun h => absurd rfl h⟩
  | f :: rest, z, n, hok, hbh, hr, hb, hhole => by
    obtain ⟨hro, hokrest, hredf⟩ := hok
    obtain ⟨hbo, hbhrest⟩ := hbh
    have hrf : redInv (fillFrame f z) = true :=
      redInv_fillFrame hr hro (fun hc => ⟨hhole hc, (hredf hc).1⟩)
    have hbf : bhOpt (fillFrame f z) = some (n + colVal f.c) := bhOpt_fillFrame hb hbo
    have hholerest : holeOK rest (fillFrame f z) := by
      cases rest with
      | nil => trivial
      | cons g rest2 =>
        intro hg
        cases hc : f.c with
        | black => exact isBlackRoot_fillFrame_black hc
        | red =>
          have := (hredf hc).2
          rw [headBlack, hg] at this
          exact absurd this (by simp)
    have IH := plug_valid rest (fillFrame f z) (n + colVal f.c) hokrest hbhrest hrf hbf
      hholerest
    refine ⟨IH.1, IH.2.1, fun _ => ?_⟩
    cases rest with
    | nil =>
      have hfb : f.c = Col.black := by
        cases hc : f.c with
        | black => rfl
        | red => exact absurd (hredf hc).2 (by simp [headBlack])
      rw [plug_cons]
      exact isBlackRoot_fillFrame_black hfb
    | cons g rest2 =>
      rw [plug_cons]
      exact IH.2.2 (by simp)

/-- Correctness of RBTree::fixInsert: started on a red-rooted, internally
valid subtree whose context is color-sane with matching black heights (the
only possible violation being a red parent frame), it returns a tree with
the red invariant, a black root, and a defined black height. -/
theorem fixInsert_valid : ∀ (ctx : List Frame) (z : RBT) (n : Nat),
    isRed z = true → redInv z = true → bhOpt z = some n →
    ctxOK ctx → ctxBH ctx n →
    redInv (fixInsert z ctx) = true ∧ isBlackRoot (fixInsert z ctx) = true ∧
      ∃ m, bhOpt (fixInsert z ctx) = some m
  | [], z, n, _, hri, hbh, _, _ =>
    ⟨redInv_blackenRoot hri, isBlackRoot_blackenRoot z, bhOpt_blackenRoot hbh⟩
  | [pf], z, n, _, hri, hbh, hok, hbh2 => by
    by_cases hpf : pf.c = Col.black
    · have hstep : fixInsert z [pf] = blackenRoot (plug z [pf]) := by
        simp [fixInsert, hpf]
      obtain ⟨hr1, ⟨m, hm⟩, _⟩ := plug_valid [pf] z n hok hbh2 hri hbh
        (fun hc => Col.noConfusion (hpf.symm.trans hc))
      rw [hstep]
      exact ⟨redInv_blackenRoot hr1, isBlackRoot_blackenRoot _, bhOpt_blackenRoot hm⟩
    · obtain ⟨_, _, hredf⟩ := hok
      exact absurd (hredf (col_not_black hpf)).2 (by simp [headBlack])
  | pf :: gf :: rest, z, n, hred, hri, hbh, hok, hbh2 => by
    obtain ⟨hrp, hok2, hredp⟩ := hok
    obtain ⟨hrg, hokrest, hredg⟩ := hok2
    obtain ⟨hbp, hbh3⟩ := hbh2
    obtain ⟨hbg, hbhrest⟩ := hbh3
    by_cases hpf : pf.c = Col.black
    · have hstep : fixInsert z (pf :: gf :: rest) =
          blackenRoot (plug z (pf :: gf :: rest)) := by
        simp [fixInsert, hpf]
      obtain ⟨hr1, ⟨m, hm⟩, _⟩ := plug_valid (pf :: gf :: rest) z n
        ⟨hrp, ⟨hrg, hokrest, hredg⟩, hredp⟩ ⟨hbp, hbg, hbhrest⟩ hri hbh
        (fun hc => Col.noConfusion (hpf.symm.trans hc))
      rw [hstep]
      exact ⟨redInv_blackenRoot hr1, isBlackRoot_blackenRoot _, bhOpt_blackenRoot hm⟩
    · have hpfr : pf.c = Col.red := col_not_black hpf
      have hgb : gf.c = Col.black := (hredp hpfr).2
      have hpob : isBlackRoot pf.other = true := (hredp hpfr).1
      have hbg2 : bhOpt gf.other = some n := by simpa [hpfr, colVal] using hbg
      have hbhrest2 : ctxBH rest (n + 1) := by
        simpa [hpfr, hgb, colVal] using hbhrest
      by_cases hu : isRed gf.other = true
      · have hstep : fixInsert z (pf :: gf :: rest) =
            fixInsert (fillFrame { gf with c := Col.red, other := blackenRoot gf.other }
              (fillFrame { pf with c := Col.black } z)) rest := by
          simp [fixInsert, hpf, hu]
        have hri_inner :
            redInv (fillFrame { pf with c := Col.black } z) = true :=
          redInv_fillFrame hri hrp (fun hc => Col.noConfusion hc)
        have hb_inner :
            bhOpt (fillFrame { pf with c := Col.black } z) = some (n + 1) := by
          simpa [colVal] using
            bhOpt_fillFrame (f := { pf with c := Col.black }) hbh hbp
        have hb_unc : bhOpt (blackenRoot gf.other) = some (n + 1) :=
          bhOpt_blackenRoot_red hu hbg2
        have hr_unc : redInv (blackenRoot gf.other) = true := redInv_blackenRoot hrg
        have hbr_inner : isBlackRoot (fillFrame { pf with c := Col.black } z) = true :=
          isBlackRoot_fillFrame_black rfl
        have hred2 : isRed (fillFrame { gf with c := Col.red, other := blackenRoot gf.other }
            (fillFrame { pf with c := Col.black } z)) = true :=
          isRed_fillFrame_red rfl
        have hri2 : redInv (fillFrame { gf with c := Col.red, other := blackenRoot gf.other }
            (fillFrame { pf with c := Col.black } z)) = true :=
          redInv_fillFrame hri_inner hr_unc
            (fun _ => ⟨hbr_inner, isBlackRoot_blackenRoot _⟩)
        have hb2 : bhOpt (fillFrame { gf with c := Col.red, other := blackenRoot gf.other }
            (fillFrame { pf with c := Col.black } z)) = some (n + 1) := by
          simpa [colVal] using
            bhOpt_fillFrame (f := { gf with c := Col.red, other := blackenRoot gf.other })
              hb_inner hb_unc
        rw [hstep]
        exact fixInsert_valid rest _ (n + 1) hred2 hri2 hb2 hokrest hbhrest2
      · have hu2 : isRed gf.other = false := by simpa using hu
        have hub : isBlackRoot gf.other = true := isBlackRoot_of_not_red hu2
        obtain ⟨zl, zk, zpl, zr, rfl⟩ := isRed_node_inv hred
        obtain ⟨hrzl, hrzr, hzb⟩ := redInv_node_inv hri
        obtain ⟨hzbl, hzbr⟩ := hzb rfl
        obtain ⟨a, hbzl, hbzr, hna⟩ := bhOpt_node_inv hbh
        have hna2 : n = a := by simpa [colVal] using hna
        subst hna2
        rcases pf with ⟨pdir, pc, pk, ppl, pother⟩
        rcases gf with ⟨gdir, gc, gk, gpl, gother⟩
        simp only at hpfr hgb hrp hrg hpob hub hbp hbg2 hu2
        subst hpfr
        subst hgb
        have hS : ∃ S : RBT,
            fixInsert (.node .red zl zk zpl zr)
                (⟨pdir, .red, pk, ppl, pother⟩ :: ⟨gdir, .black, gk, gpl, gother⟩ :: rest) =
              blackenRoot (plug S rest) ∧
            redInv S = true ∧ bhOpt S = some (n + 1) ∧ isBlackRoot S = true := by
          cases gdir with
          | left =>
            cases pdir with
            | left =>
              refine ⟨.node .black (.node .red zl zk zpl zr) pk ppl
                (.node .red pother gk gpl gother), ?_, ?_, ?_, rfl⟩
              · simp [fixInsert, hu2, fillFrame, blackenRoot, rotateRight]
              · exact redInv_node_black hri (redInv_node_red hrp hrg hpob hub)
              · have h1 : bhOpt (RBT.node .red pother gk gpl gother) = some n := by
                  simpa [colVal] using
                    @bhOpt_node Col.red pother gk gpl gother n hbp hbg2
                simpa [colVal] using
                  @bhOpt_node Col.black (.node .red zl zk zpl zr) pk ppl (.node .red pother gk gpl gother) n hbh h1
            | right =>
              refine ⟨.node .black (.node .red pother pk ppl zl) zk zpl
                (.node .red zr gk gpl gother), ?_, ?_, ?_, rfl⟩
              · simp [fixInsert, hu2, fillFrame, blackenRoot, rotateLeft, rotateRight]
              · exact redInv_node_black (redInv_node_red hrp hrzl hpob hzbl)
                  (redInv_node_red hrzr hrg hzbr hub)
              · have h1 : bhOpt (RBT.node .red pother pk ppl zl) = some n := by
                  simpa [colVal] using
                    @bhOpt_node Col.red pother pk ppl zl n hbp hbzl
                have h2 : bhOpt (RBT.node .red zr gk gpl gother) = some n := by
                  simpa [colVal] using
                    @bhOpt_node Col.red zr gk gpl gother n hbzr hbg2
                simpa [colVal] using
                  @bhOpt_node Col.black (.node .red pother pk ppl zl) zk zpl (.node .red zr gk gpl gother) n h1 h2
          | right =>
            cases pdir with
            | left =>
              refine ⟨.node .black (.node .red gother gk gpl zl) zk zpl
                (.node .red zr pk ppl pother), ?_, ?_, ?_, rfl⟩
              · simp [fixInsert, hu2, fillFrame, blackenRoot, rotateLeft, rotateRight]
              · exact redInv_node_black (redInv_node_red hrg hrzl hub hzbl)
                  (redInv_node_red hrzr hrp hzbr hpob)
              · have h1 : bhOpt (RBT.node .red gother gk gpl zl) = some n := by
                  simpa [colVal] using
                    @bhOpt_node Col.red gother gk gpl zl n hbg2 hbzl
                have h2 : bhOpt (RBT.node .red zr pk ppl pother) = some n := by
                  simpa [colVal] using
                    @bhOpt_node Col.red zr pk ppl pother n hbzr hbp
                simpa [colVal] using
                  @bhOpt_node Col.black (.node .red gother gk gpl zl) zk zpl (.node .red zr pk ppl pother) n h1 h2
            | right =>
              refine ⟨.node .black (.node .red gother gk gpl pother) pk ppl
                (.node .red zl zk zpl zr), ?_, ?_, ?_, rfl⟩
              · simp [fixInsert, hu2, fillFrame, blackenRoot, rotateLeft]
              · exact redInv_node_black (redInv_node_red hrg hrp hub hpob) hri
              · have h1 : bhOpt (RBT.node .red gother gk gpl pother) = some n := by
                  simpa [colVal] using
                    @bhOpt_node Col.red gother gk gpl pother n hbg2 hbp
                simpa [colVal] using
                  @bhOpt_node Col.black (.node .red gother gk gpl pother) pk ppl (.node .red zl zk zpl zr) n h1 hbh
        obtain ⟨S, hstep, hrS, hbS, hblS⟩ := hS
        have hhole : holeOK rest S := by
          cases rest with
          | nil => trivial
          | cons g rest2 => exact fun _ => hblS
        obtain ⟨hr1, ⟨m, hm⟩, _⟩ :=
          plug_valid rest S (n + 1) hokrest hbhrest2 hrS hbS hhole
        rw [hstep]
        exact ⟨redInv_blackenRoot hr1, isBlackRoot_blackenRoot _, bhOpt_blackenRoot hm⟩

/-- The descent of RBTree::insert keeps the context color-sane and
height-consistent, so the tree after the insert (duplicate append, or new
red leaf plus fixInsert) is valid. -/
theorem insertGo_valid : ∀ (t : RBT) (key : String) (i : Nat) (ctx : List Frame) (n : Nat),
    redInv t = true → bhOpt t = some n → ctxOK ctx → ctxBH ctx n →
    holeOK ctx t → (isRed t = true → headBlack ctx) →
    (ctx = [] → isBlackRoot t = true) →
    redInv (insertGo t key i ctx) = true ∧ isBlackRoot (insertGo t key i ctx) = true ∧
      ∃ m, bhOpt (insertGo t key i ctx) = some m
  | .nil, key, i, ctx, n, _, hbh, hok, hbh2, _, _, _ => by
    have hn : n = 0 := by
      have : (some 0 : Option Nat) = some n := hbh
      simpa using this.symm
    subst hn
    rw [insertGo]
    exact fixInsert_valid ctx _ 0 rfl rfl rfl hok hbh2
  | .node c l k pl r, key, i, ctx, n, hri, hbh, hok, hbh2, hhole, hredhead, hroot => by
    obtain ⟨hrl, hrr, hcred⟩ := redInv_node_inv hri
    obtain ⟨a, hbl, hbr, hna⟩ := bhOpt_node_inv hbh
    by_cases h : key = k
    · have hstep : insertGo (.node c l k pl r) key i ctx =
          plug (.node c l k (pl ++ [i]) r) ctx := by
        simp [insertGo, h]
      rw [hstep]
      have hri2 : redInv (.node c l k (pl ++ [i]) r) = true := hri
      have hbh3 : bhOpt (.node c l k (pl ++ [i]) r) = some n := hbh
      have hblk : isBlackRoot (RBT.node c l k (pl ++ [i]) r) =
          isBlackRoot (RBT.node c l k pl r) := by
        cases c <;> rfl
      have hhole2 : holeOK ctx (.node c l k (pl ++ [i]) r) := by
        cases ctx with
        | nil => trivial
        | cons f rest =>
          intro hc
          rw [hblk]
          exact hhole hc
      obtain ⟨h1, h2, h3⟩ := plug_valid ctx _ n hok hbh2 hri2 hbh3 hhole2
      refine ⟨h1, ?_, h2⟩
      cases ctx with
      | nil =>
        show isBlackRoot (RBT.node c l k (pl ++ [i]) r) = true
        rw [hblk]
        exact hroot rfl
      | cons f rest => exact h3 (by simp)
    · by_cases h2 : key < k
      · have hstep : insertGo (.node c l k pl r) key i ctx =
            insertGo l key i (⟨.left, c, k, pl, r⟩ :: ctx) := by
          simp [insertGo, h, h2]
        rw [hstep]
        refine insertGo_valid l key i (⟨.left, c, k, pl, r⟩ :: ctx) a hrl hbl
          ⟨hrr, hok, fun hc => ⟨(hcred hc).2, hredhead (by rw [show c = Col.red from hc]; rfl)⟩⟩
          ⟨hbr, by rw [← hna]; exact hbh2⟩
          (fun hc => (hcred hc).1)
          (fun hlr => ?_)
          (fun hc => absurd hc (by simp))
        show c = Col.black
        cases hc : c with
        | black => rfl
        | red =>
          have hbll := (hcred hc).1
          rw [isRed_false_of_black hbll] at hlr
          exact Bool.noConfusion hlr
      · have hstep : insertGo (.node c l k pl r) key i ctx =
            insertGo r key i (⟨.right, c, k, pl, l⟩ :: ctx) := by
          simp [insertGo, h, h2]
        rw [hstep]
        refine insertGo_valid r key i (⟨.right, c, k, pl, l⟩ :: ctx) a hrr hbr
          ⟨hrl, hok, fun hc => ⟨(hcred hc).1, hredhead (by rw [show c = Col.red from hc]; rfl)⟩⟩
          ⟨hbl, by rw [← hna]; exact hbh2⟩
          (fun hc => (hcred hc).2)
          (fun hrr2 => ?_)
          (fun hc => absurd hc (by simp))
        show c = Col.black
        cases hc : c with
        | black => rfl
        | red =>
          have hbrr := (hcred hc).2
          rw [isRed_false_of_black hbrr] at hrr2
          exact Bool.noConfusion hrr2

/-- RBTree::insert preserves the red-black color and height invariants. -/
theorem insert_valid (t : RBT) (key : String) (i : Nat)
    (h1 : redInv t = true) (h2 : isBlackRoot t = true) (h3 : ∃ m, bhOpt t = some m) :
    redInv (t.insert key i) = true ∧ isBlackRoot (t.insert key i) = true ∧
      ∃ m, bhOpt (t.insert key i) = some m := by
  obtain ⟨n, hn⟩ := h3
  rw [RBT.insert]
  exact insertGo_valid t key i [] n h1 hn trivial trivial trivial
    (fun hr => by rw [isRed_false_of_black h2] at hr; exact Bool.noConfusion hr)
    (fun _ => h2)

theorem colorsOK_all : ∀ t : RBT, colorsOK t = true
  | .nil => rfl
  | .node c l k pl r => by
    cases c <;> simp [colorsOK, colorsOK_all l, colorsOK_all r]

/-- The tree built by the harness satisfies the color and height
invariants. -/
theorem buildRBT_valid (data : List Passenger) :
    redInv (buildRBT data) = true ∧ isBlackRoot (buildRBT data) = true ∧
      ∃ m, bhOpt (buildRBT data) = some m := by
  induction data using List.reverseRecOn with
  | nil => exact ⟨rfl, rfl, 0, rfl⟩
  | append_singleton arr p ih =>
    rw [buildRBT_append]
    exact insert_valid _ _ _ ih.1 ih.2.1 ih.2.2

theorem keys_node (c : Col) (l : RBT) (k : String) (pl : List Nat) (r : RBT) :
    (RBT.node c l k pl r).keys = l.keys ++ k :: r.keys := by
  simp [RBT.keys, RBT.toList]

/-- The converse bridge: the recursive ordering invariant makes the inorder
keys strictly sorted. -/
theorem sorted_of_ordered : ∀ t : RBT, Ordered t → t.keys.Sorted (· < ·)
  | .nil, _ => by simp [RBT.keys, RBT.toList]
  | .node c l k pl r, h => by
    obtain ⟨hlt, hgt, hl, hr⟩ := h
    rw [keys_node, List.Sorted, List.pairwise_append]
    refine ⟨sorted_of_ordered l hl, ?_, ?_⟩
    · rw [List.pairwise_cons]
      exact ⟨fun b hb => hgt b hb, sorted_of_ordered r hr⟩
    · intro a ha b hb
      rcases List.mem_cons.mp hb with rfl | hb2
      · exact hlt a ha
      · exact lt_trans (hlt a ha) (hgt b hb2)

/-- On an ordered tree that already holds the key, the insert descent finds
the key and returns the rebuilt tree with only that payload extended: no
fixInsert, no rotation, no recoloring. -/
theorem insertGo_of_mem : ∀ (t : RBT) (key : String) (i : Nat) (ctx : List Frame),
    Ordered t → key ∈ t.keys →
    insertGo t key i ctx = plug (appendAt t key i) ctx
  | .nil, key, i, ctx, _, hmem => by simp [RBT.keys, RBT.toList] at hmem
  | .node c l k pl r, key, i, ctx, hord, hmem => by
    obtain ⟨hlt, hgt, hordl, hordr⟩ := hord
    by_cases h : key = k
    · simp [insertGo, appendAt, h]
    · have hmem2 : key ∈ l.keys ∨ key ∈ r.keys := by
        rw [keys_node] at hmem
        rcases List.mem_append.mp hmem with hm | hm
        · exact Or.inl hm
        · rcases List.mem_cons.mp hm with rfl | hm2
          · exact absurd rfl h
          · exact Or.inr hm2
      by_cases h2 : key < k
      · have hml : key ∈ l.keys := by
          rcases hmem2 with hm | hm
          · exact hm
          · exact absurd (hgt key hm) (not_lt.mpr (le_of_lt h2))
        rw [insertGo, if_neg h, if_pos h2, insertGo_of_mem l key i _ hordl hml,
          appendAt, if_neg h, if_pos h2, plug_cons]
        rfl
      · have hmr : key ∈ r.keys := by
          rcases hmem2 with hm | hm
          · exact absurd (hlt key hm) h2
          · exact hm
        rw [insertGo, if_neg h, if_neg h2, insertGo_of_mem r key i _ hordr hmr,
          appendAt, if_neg h, if_neg h2, plug_cons]
        rfl

theorem stripPayloads_appendAt : ∀ (t : RBT) (key : String) (i : Nat),
    stripPayloads (appendAt t key i) = stripPayloads t
  | .nil, _, _ => rfl
  | .node c l k pl r, key, i => by
    by_cases h : key = k
    · simp [appendAt, h, stripPayloads]
    · by_cases h2 : key < k
      · simp [appendAt, h, h2, stripPayloads, stripPayloads_appendAt l key i]
      · simp [appendAt, h, h2, stripPayloads, stripPayloads_appendAt r key i]

theorem search_appendAt : ∀ (t : RBT) (key : String) (i : Nat),
    Ordered t → key ∈ t.keys →
    (appendAt t key i).search key = t.search key ++ [i]
  | .nil, key, i, _, hmem => by simp [RBT.keys, RBT.toList] at hmem
  | .node c l k pl r, key, i, hord, hmem => by
    obtain ⟨hlt, hgt, hordl, hordr⟩ := hord
    by_cases h : key = k
    · simp [appendAt, h, RBT.search]
    · have hmem2 : key ∈ l.keys ∨ key ∈ r.keys := by
        rw [keys_node] at hmem
        rcases List.mem_append.mp hmem with hm | hm
        · exact Or.inl hm
        · rcases List.mem_cons.mp hm with rfl | hm2
          · exact absurd rfl h
          · exact Or.inr hm2
      by_cases h2 : key < k
      · have hml : key ∈ l.keys := by
          rcases hmem2 with hm | hm
          · exact hm
          · exact absurd (hgt key hm) (not_lt.mpr (le_of_lt h2))
        simp [appendAt, h, h2, RBT.search, search_appendAt l key i hordl hml]
      · have hmr : key ∈ r.keys := by
          rcases hmem2 with hm | hm
          · exact absurd (hlt key hm) h2
          · exact hm
        simp [appendAt, h, h2, RBT.search, search_appendAt r key i hordr hmr]

theorem insert_of_mem (t : RBT) (key : String) (i : Nat)
    (hord : Ordered t) (hmem : key ∈ t.keys) :
    t.insert key i = appendAt t key i := by
  rw [RBT.insert, insertGo_of_mem t key i [] hord hmem]
  rfl

/-! ## Remaining support lemmas -/

theorem linearSearch_nil_of_absent (data : List Passenger) (key : String)
    (habs : ∀ p ∈ data, p.fullName ≠ key) : linearSearch data key = [] := by
  rw [List.eq_nil_iff_forall_not_mem]
  intro j hj
  rcases (mem_linearSearchAux key data 0 j).mp hj with ⟨m, hm, _, hkey⟩
  rw [List.getD_eq_getElem data default hm] at hkey
  exact habs _ (List.getElem_mem hm) hkey

theorem foldl_snoc_map (g : Nat → ResultRow) :
    ∀ (l : List Nat) (init : List ResultRow),
      l.foldl (fun rows x => rows ++ [g x]) init = init ++ l.map g
  | [], init => by simp
  | x :: rest, init => by
    rw [List.foldl_cons, foldl_snoc_map g rest (init ++ [g x])]
    simp

/-! ## The claims -/

/-- C1: after every call to RBTree::insert the tree satisfies all five
red-black invariants: (a) left subtree keys < node key < right subtree
keys, (b) every node is red or black, (c) the root is black, (d) no red
node has a red parent, (e) every path from a node to a descendant null
reference passes the same number of black nodes. This holds for the tree
built from any dataset and is preserved by any further insert into any
valid tree. -/
theorem rbtree_invariants_after_insert :
    (∀ data : List Passenger, RBValid (buildRBT data)) ∧
      ∀ (t : RBT) (key : String) (i : Nat), RBValid t → RBValid (t.insert key i) := by
  constructor
  · intro data
    obtain ⟨h1, h2, m, hm⟩ := buildRBT_valid data
    exact ⟨ordered_of_sorted _ (buildRBT_master data).1, colorsOK_all _, h2, h1,
      by rw [hm]; rfl⟩
  · rintro t key i ⟨ho, hc, hb, hr, hs⟩
    obtain ⟨h1, h2, m, hm⟩ := insert_valid t key i hr hb (Option.isSome_iff_exists.mp hs)
    refine ⟨?_, colorsOK_all _, h2, h1, by rw [hm]; rfl⟩
    refine ordered_of_sorted _ ?_
    rw [RBT.keys, toList_insert t key i ho]
    exact sortedInsert_sorted key i _ (sorted_of_ordered t ho)

/-- Witness for rbtree_invariants_after_insert: a concrete build and one
further insert into it. -/
theorem rbtree_invariants_after_insert_witness :
    RBValid (buildRBT [⟨"bob", 1, "Lux", "p"⟩, ⟨"alice", 2, "1", "q"⟩]) ∧
      RBValid ((buildRBT [⟨"bob", 1, "Lux", "p"⟩, ⟨"alice", 2, "1", "q"⟩]).insert "carol" 7) :=
  ⟨rbtree_invariants_after_insert.1 _,
    rbtree_invariants_after_insert.2 _ "carol" 7 (rbtree_invariants_after_insert.1 _)⟩

/-- C2: for every key present in the dataset, the three keyed structures
return the same multiset of record references (modelled as dataset
indices), and linear search's ascending index sequence carries the same
multiset. -/
theorem cross_structure_agreement (data : List Passenger) (key : String)
    (_hkey : key ∈ data.map Passenger.fullName) :
    (((buildBST data).search key : List Nat) : Multiset Nat) =
        ((linearSearch data key : List Nat) : Multiset Nat) ∧
      (((buildRBT data).search key : List Nat) : Multiset Nat) =
        ((linearSearch data key : List Nat) : Multiset Nat) ∧
      (((buildHT (data.length * 2 + 1) data).search key : List Nat) : Multiset Nat) =
        ((linearSearch data key : List Nat) : Multiset Nat) := by
  refine ⟨?_, ?_, ?_⟩
  · rw [buildBST_search]
  · rw [(buildRBT_master data).2 key]
  · rw [buildHT_search _ (by omega) data key]

/-- Witness for cross_structure_agreement on the end-to-end scenario
dataset of the spec. -/
theorem cross_structure_agreement_witness :
    "alice" ∈ ([⟨"alice", 1, "Lux", "p"⟩, ⟨"bob", 2, "1", "q"⟩,
        ⟨"alice", 3, "2", "r"⟩] : List Passenger).map Passenger.fullName ∧
      (((buildBST [⟨"alice", 1, "Lux", "p"⟩, ⟨"bob", 2, "1", "q"⟩,
          ⟨"alice", 3, "2", "r"⟩]).search "alice" : List Nat) : Multiset Nat) =
        ((linearSearch [⟨"alice", 1, "Lux", "p"⟩, ⟨"bob", 2, "1", "q"⟩,
          ⟨"alice", 3, "2", "r"⟩] "alice" : List Nat) : Multiset Nat) := by
  have hk : "alice" ∈ ([⟨"alice", 1, "Lux", "p"⟩, ⟨"bob", 2, "1", "q"⟩,
      ⟨"alice", 3, "2", "r"⟩] : List Passenger).map Passenger.fullName := by decide
  exact ⟨hk, (cross_structure_agreement _ "alice" hk).1⟩

/-- C3: the collision counter increments exactly once per insertion whose
target bucket is non-empty (whether or not the key is already in that
bucket); a 1-bucket table holds k - 1 collisions after k inserts; and a
same-key insert into a bucket that already holds the key still increments
the counter while creating no new chain entry. -/
theorem collision_counting_spec :
    (∀ (ht : HashTable) (key : String) (i : Nat),
        (ht.insert key i).collisionCount =
          ht.collisionCount + (if ht.bucket key = [] then 0 else 1)) ∧
      (∀ data : List Passenger, (buildHT 1 data).collisionCount = data.length - 1) ∧
      ∀ (ht : HashTable) (key : String) (i : Nat), ht.bucket key ≠ [] →
        (ht.insert key i).collisionCount = ht.collisionCount + 1 ∧
          (key ∈ (ht.bucket key).map HEntry.key →
            ((ht.insert key i).bucket key).length = (ht.bucket key).length) := by
  refine ⟨fun ht key i => ht.insert_collisions key i, buildHT_one_collisions, ?_⟩
  intro ht key i hne
  constructor
  · rw [HashTable.collisionCount, HashTable.collisionCount,
      ht.insert_collisions key i, if_neg hne]
  · intro hmem
    rw [HashTable.bucket_insert_self ht key i hne, chainInsert_length key i _ hmem]

/-- Witness for collision_counting_spec: three distinct keys into one
bucket give two collisions, and a same-key reinsert into an occupied
bucket increments without a new entry. -/
theorem collision_counting_spec_witness :
    (buildHT 1 [⟨"a", 1, "Lux", "p"⟩, ⟨"b", 2, "1", "q"⟩,
        ⟨"c", 3, "2", "r"⟩]).collisionCount = 3 - 1 ∧
      ((buildHT 1 [⟨"a", 1, "Lux", "p"⟩]).insert "a" 9).collisionCount =
        (buildHT 1 [⟨"a", 1, "Lux", "p"⟩]).collisionCount + 1 ∧
      (((buildHT 1 [⟨"a", 1, "Lux", "p"⟩]).insert "a" 9).bucket "a").length =
        ((buildHT 1 [⟨"a", 1, "Lux", "p"⟩]).bucket "a").length :=
  ⟨collision_counting_spec.2.1 _,
    (collision_counting_spec.2.2 _ "a" 9 (by decide)).1,
    (collision_counting_spec.2.2 _ "a" 9 (by decide)).2 (by decide)⟩

/-- C4: inserting a record whose key already exists appends the reference
to the existing entry's payload and returns with node structure, child
links and all colors unchanged — no rotation or recoloring happens on a
duplicate-key insert. -/
theorem duplicate_insert_frame (t : RBT) (key : String) (i : Nat)
    (hord : Ordered t) (hmem : key ∈ t.keys) :
    stripPayloads (t.insert key i) = stripPayloads t ∧
      (t.insert key i).search key = t.search key ++ [i] := by
  rw [insert_of_mem t key i hord hmem]
  exact ⟨stripPayloads_appendAt t key i, search_appendAt t key i hord hmem⟩

/-- Witness for duplicate_insert_frame at a concrete tree. -/
theorem duplicate_insert_frame_witness :
    stripPayloads ((buildRBT [⟨"bob", 1, "Lux", "p"⟩, ⟨"alice", 2, "1", "q"⟩,
          ⟨"carol", 3, "2", "r"⟩]).insert "alice" 9) =
        stripPayloads (buildRBT [⟨"bob", 1, "Lux", "p"⟩, ⟨"alice", 2, "1", "q"⟩,
          ⟨"carol", 3, "2", "r"⟩]) ∧
      ((buildRBT [⟨"bob", 1, "Lux", "p"⟩, ⟨"alice", 2, "1", "q"⟩,
          ⟨"carol", 3, "2", "r"⟩]).insert "alice" 9).search "alice" =
        (buildRBT [⟨"bob", 1, "Lux", "p"⟩, ⟨"alice", 2, "1", "q"⟩,
          ⟨"carol", 3, "2", "r"⟩]).search "alice" ++ [9] :=
 by
  have hkeys : (buildRBT [⟨"bob", 1, "Lux", "p"⟩, ⟨"alice", 2, "1", "q"⟩,
      ⟨"carol", 3, "2", "r"⟩]).keys = ["alice", "bob", "carol"] := by rfl
  exact duplicate_insert_frame _ "alice" 9
    (ordered_of_sorted _ (buildRBT_master _).1)
    (by rw [hkeys]; simp)

/-- C7: searching a key absent from the dataset returns an empty result
from every structure; the searches are total functions, so no error is
signalled. -/
theorem missing_key_empty (data : List Passenger) (key : String)
    (habs : ∀ p ∈ data, p.fullName ≠ key) :
    linearSearch data key = [] ∧ (buildBST data).search key = [] ∧
      (buildRBT data).search key = [] ∧
      (buildHT (data.length * 2 + 1) data).search key = [] := by
  have h0 : linearSearch data key = [] := linearSearch_nil_of_absent data key habs
  exact ⟨h0, by rw [buildBST_search, h0], by rw [(buildRBT_master data).2 key, h0],
    by rw [buildHT_search _ (by omega) data key, h0]⟩

/-- Witness for missing_key_empty at a concrete dataset and absent key. -/
theorem missing_key_empty_witness :
    linearSearch [⟨"alice", 1, "Lux", "p"⟩, ⟨"bob", 2, "1", "q"⟩] "zzz" = [] ∧
      (buildBST [⟨"alice", 1, "Lux", "p"⟩, ⟨"bob", 2, "1", "q"⟩]).search "zzz" = [] ∧
      (buildRBT [⟨"alice", 1, "Lux", "p"⟩, ⟨"bob", 2, "1", "q"⟩]).search "zzz" = [] ∧
      (buildHT (([⟨"alice", 1, "Lux", "p"⟩, ⟨"bob", 2, "1", "q"⟩] :
          List Passenger).length * 2 + 1)
        [⟨"alice", 1, "Lux", "p"⟩, ⟨"bob", 2, "1", "q"⟩]).search "zzz" = [] :=
  missing_key_empty _ "zzz" (by decide)

/-- C8 counterexample: the claim asserts a pool of distinct random strings,
but makeData never deduplicates — when every character draw returns 'a',
all max(10, n/20) pool strings are equal, so the pool is not distinct. -/
theorem makeData_pool_not_distinct :
    ¬ (makePool (fun _ => 'a') 100).Nodup := by decide

/-- C8 (amended): the pool holds max(10, n/20) strings of length 10 (not
guaranteed distinct), and each record's key is the pool entry at index
rng-output mod pool-size, hence an element of the pool; exactness of the
uniform draw is abstracted (the modulo indexing is not exactly uniform). -/
theorem makeData_pool_spec (letters : Nat → Char) (raws : Nat → Nat) (n : Nat) :
    (makePool letters n).length = max 10 (n / 20) ∧
      (∀ s ∈ makePool letters n, s.length = 10) ∧
      (∀ j, j < n →
        (makeKeys letters raws n).getD j "" =
          (makePool letters n).getD (raws j % (makePool letters n).length) "") ∧
      ∀ key ∈ makeKeys letters raws n, key ∈ makePool letters n := by
  refine ⟨by simp [makePool], ?_, ?_, ?_⟩
  · intro s hs
    rcases List.mem_map.mp hs with ⟨j, hj, rfl⟩
    simp [randomString, String.length]
  · intro j hj
    rw [makeKeys, List.getD_eq_getElem _ _ (by simpa using hj)]
    simp
  · intro key hk
    rw [makeKeys] at hk
    rcases List.mem_map.mp hk with ⟨j, hj, rfl⟩
    have hpos : 0 < (makePool letters n).length := by
      simp [makePool]
    have hlt : raws j % (makePool letters n).length < (makePool letters n).length :=
      Nat.mod_lt _ hpos
    rw [List.getD_eq_getElem _ _ hlt]
    exact List.getElem_mem hlt

/-- Witness for makeData_pool_spec at a concrete draw stream and index. -/
theorem makeData_pool_spec_witness :
    (makePool (fun _ => 'a') 100).length = max 10 (100 / 20) ∧
      (makeKeys (fun _ => 'a') (fun j => j + 3) 100).getD 5 "" =
        (makePool (fun _ => 'a') 100).getD
          ((fun j => j + 3) 5 % (makePool (fun _ => 'a') 100).length) "" :=
  ⟨(makeData_pool_spec (fun _ => 'a') (fun j => j + 3) 100).1,
    (makeData_pool_spec (fun _ => 'a') (fun j => j + 3) 100).2.2.1 5 (by decide)⟩

/-- C9 counterexample: the time fields do not hold the measured nanosecond
counts. With a linear-search measurement of 1234567 ns at the first size,
the stream's default double formatting (defaultfloat, precision 6) writes
the first data line with time field 1.23457e+06 — a 6-significant-digit
rounding, not the decimal count 1234567. -/
theorem csv_time_field_not_exact :
    (csvFileLines (mainRows (fun _ => ⟨1234567, 2, 3, 4, 5⟩) (fun _ => []))).getD 1 "" =
        "100,1.23457e+06,2,3,4,5,0" ∧
      formatDouble 1234567 = "1.23457e+06" ∧
      formatDouble 1234567 ≠ Nat.repr 1234567 := by
  refine ⟨by decide, by decide, by decide⟩

/-- C9 (amended): the written file is the exact header line followed by one
line per tested size, in order, with comma-separated fields ordered size,
linear, bst, rbt, hash, multimap, collisions; the time fields hold the
measured nanosecond counts rendered with the stream's default double
formatting (6 significant digits — the decimal count itself exactly when it
is below 10^6, rounded scientific notation from 10^6 on); the collision
field is the count of the hash table with 2n + 1 buckets built from that
size's dataset; and the tested sizes are exactly the fixed literal list. -/
theorem csv_output_spec (t : Nat → Timings) (dataFor : Nat → List Passenger) :
    csvFileLines (mainRows t dataFor) =
        "size,linear_us,bst_us,rbt_us,hash_us,multimap_us,collisions" ::
          sizesList.map (fun n =>
            Nat.repr n ++ "," ++ formatDouble (t n).lin ++ "," ++
              formatDouble (t n).bst ++ "," ++ formatDouble (t n).rbt ++ "," ++
              formatDouble (t n).hash ++ "," ++ formatDouble (t n).multimap ++ "," ++
              Nat.repr (buildHT (n * 2 + 1) (dataFor n)).collisionCount) ∧
      (mainRows t dataFor).map ResultRow.size = sizesList ∧
      (mainRows t dataFor).length = 10 ∧
      (∀ x : Nat, x < 1000000 → formatDouble x = Nat.repr x) ∧
      sizesList = [100, 1000, 5000, 10000, 50000, 100000, 200000, 500000,
        750000, 1000000] := by
  have hmr : mainRows t dataFor = sizesList.map (fun n =>
      ({ size := n, tLinear := (t n).lin, tBST := (t n).bst, tRBT := (t n).rbt,
         tHash := (t n).hash, tMultimap := (t n).multimap,
         collisions := (buildHT (n * 2 + 1) (dataFor n)).collisionCount } : ResultRow)) := by
    rw [mainRows, foldl_snoc_map]
    simp
  refine ⟨?_, ?_, ?_, fun x hx => ?_, rfl⟩
  · rw [csvFileLines, hmr, List.map_map]
    rfl
  · rw [hmr, List.map_map]
    rfl
  · rw [hmr]
    rfl
  · rw [formatDouble, if_pos hx]

/-- Witness for csv_output_spec at a concrete timing oracle, discharging
the below-10^6 exactness hypothesis at a concrete count. -/
theorem csv_output_spec_witness :
    (mainRows (fun _ => ⟨1, 2, 3, 4, 5⟩) (fun _ => [])).length = 10 ∧
      formatDouble 999999 = Nat.repr 999999 :=
  ⟨(csv_output_spec (fun _ => ⟨1, 2, 3, 4, 5⟩) (fun _ => [])).2.2.1,
    (csv_output_spec (fun _ => ⟨1, 2, 3, 4, 5⟩) (fun _ => [])).2.2.2.1 999999 (by decide)⟩

/-- C10: all three keyed structures return matches in exact dataset
insertion order — their payload lists (of record indices; references and
indices coincide in this model) equal linear search's ascending index list
element-wise, which is stronger than the multiset agreement of the spec. -/
theorem insertion_order_agreement (data : List Passenger) (key : String)
    (_hkey : key ∈ data.map Passenger.fullName) :
    (buildBST data).search key = linearSearch data key ∧
      (buildRBT data).search key = linearSearch data key ∧
      (buildHT (data.length * 2 + 1) data).search key = linearSearch data key :=
  ⟨buildBST_search data key, (buildRBT_master data).2 key,
    buildHT_search _ (by omega) data key⟩

/-- Witness for insertion_order_agreement at a concrete duplicate-heavy
dataset. -/
theorem insertion_order_agreement_witness :
    "dora" ∈ ([⟨"dora", 1, "Lux", "p"⟩, ⟨"erik", 2, "1", "q"⟩,
        ⟨"dora", 3, "2", "r"⟩, ⟨"dora", 4, "3", "s"⟩] : List Passenger).map
        Passenger.fullName ∧
      (buildBST [⟨"dora", 1, "Lux", "p"⟩, ⟨"erik", 2, "1", "q"⟩,
          ⟨"dora", 3, "2", "r"⟩, ⟨"dora", 4, "3", "s"⟩]).search "dora" =
        linearSearch [⟨"dora", 1, "Lux", "p"⟩, ⟨"erik", 2, "1", "q"⟩,
          ⟨"dora", 3, "2", "r"⟩, ⟨"dora", 4, "3", "s"⟩] "dora" := by
  have hk : "dora" ∈ ([⟨"dora", 1, "Lux", "p"⟩, ⟨"erik", 2, "1", "q"⟩,
      ⟨"dora", 3, "2", "r"⟩, ⟨"dora", 4, "3", "s"⟩] : List Passenger).map
      Passenger.fullName := by decide
  exact ⟨hk, (insertion_order_agreement _ "dora" hk).1⟩

end Lab2
